import Mathlib

/-!
Verification of the Guardia planning core.

The repository is a client-side shift-planning app.  Its core operations
(shift registry, pick ledger, fairness resolver, calendar-day classifier)
are embedded here as pure Lean functions, translated from the JavaScript
source:

* the "clean static version" (src/unnamed/part_000, the IIFE variant with
  statsFor, whoIsAssigned, resolveConflictsFair and randomAssignRemaining)
  supplies the core model (structure Ledger and the functions below it);
* the legacy variant in src/script.js (which additionally stores an
  "assigned" array on every shift and keeps it in sync with userPicks by
  hand) is embedded separately (structure JsState and the functions below
  it).

JavaScript objects used as dictionaries (state.picks, userPicks,
finishedUsers) are modelled as association lists in insertion order; the
source's hydrateResidents guarantees exactly one picks entry per resident,
so the list of residents is recovered as the keys of the picks list.
Math.random tie-breaking is modelled by an injected boolean tie-break
function.  All functions are total and executable.
-/

namespace Guardia

/-- Day of week of a proleptic-Gregorian date, in the convention of
JavaScript's getUTCDay (0 = Sunday, 1 = Monday, ..., 6 = Saturday),
computed with Zeller's congruence.  This mirrors what the source obtains
from new Date(Date.UTC(y, m-1, d)).getUTCDay(). -/
def zellerDow (y m d : Nat) : Nat :=
  let y' := if m ≤ 2 then y - 1 else y
  let m' := if m ≤ 2 then m + 12 else m
  let K := y' % 100
  let J := y' / 100
  let h := (d + (13 * (m' + 1)) / 5 + K + K / 4 + J / 4 + 5 * J) % 7
  (h + 6) % 7

/-- Split a character list at every occurrence of the separator, the
semantics of JavaScript's String.prototype.split with a one-character
separator. -/
def splitOnChar (sep : Char) : List Char → List (List Char)
  | [] => [[]]
  | c :: rest =>
    if c = sep then [] :: splitOnChar sep rest
    else
      match splitOnChar sep rest with
      | [] => [c] :: []
      | g :: gs => (c :: g) :: gs

/-- Read a decimal digit. -/
def charDigit? (c : Char) : Option Nat :=
  if '0' ≤ c ∧ c ≤ '9' then some (c.toNat - '0'.toNat) else none

/-- Accumulate decimal digits; fails on any non-digit character. -/
def digitsToNatAux (acc : Nat) : List Char → Option Nat
  | [] => some acc
  | c :: rest =>
    match charDigit? c with
    | some d => digitsToNatAux (acc * 10 + d) rest
    | none => none

/-- Parse a non-empty all-digit character list as a natural number: the
behaviour of JavaScript's Number on the digit segments of a date string. -/
def digitSegToNat? : List Char → Option Nat
  | [] => none
  | cs => digitsToNatAux 0 cs

/-- Parse an ISO date string "YYYY-MM-DD" into numeric fields, mirroring
iso.split("-").map(Number) in the source.  Returns none when the string is
not of that shape (the app's date inputs always are). -/
def parseIsoDate (iso : String) : Option (Nat × Nat × Nat) :=
  match (splitOnChar '-' iso.data).map digitSegToNat? with
  | [some y, some m, some d] => some (y, m, d)
  | _ => none

/-- Calendar-day classifier of the clean static version: isMonOrFri builds
a UTC date from the ISO fields and tests getUTCDay against 1 (Monday) and
5 (Friday).  A malformed date never classifies as Monday/Friday (in the
source the NaN weekday compares false). -/
def isMonOrFri (iso : String) : Bool :=
  match parseIsoDate iso with
  | some (y, m, d) => decide (zellerDow y m d = 1) || decide (zellerDow y m d = 5)
  | none => false

/-- A shift of the clean static version: { id, date, type }.  The assigned
array of the source is a derived view (rebuilt from picks on every render),
so it is not part of the core state. -/
structure Shift where
  id : String
  date : String
  type : String
deriving DecidableEq

/-- The core aggregate of the clean static version: state.shifts (registry,
in insertion order), state.picks (one entry per resident, in resident
order), and config.slotsPerResident. -/
structure Ledger where
  shifts : List Shift
  picks : List (String × List String)
  slots : Nat
deriving DecidableEq

/-- Look a resident's claim list up in a picks association list; a missing
resident reads as the empty list (the source reads state.picks[r] || []). -/
def lookupPicks : List (String × List String) → String → List String
  | [], _ => []
  | p :: rest, r => if p.1 = r then p.2 else lookupPicks rest r

/-- The claim list of resident r: state.picks[r]. -/
def getPicks (L : Ledger) (r : String) : List String :=
  lookupPicks L.picks r

/-- The residents, recovered as the keys of the picks list (the source's
state.residents; hydrateResidents keeps both in step). -/
def residentsOf (L : Ledger) : List String :=
  L.picks.map Prod.fst

/-- statsFor(name).total: the length of the resident's claim list. -/
def statsTotal (L : Ledger) (r : String) : Nat :=
  (getPicks L r).length

/-- statsFor(name).monfri: how many of the resident's claimed ids resolve
to a shift in the registry whose date is a Monday or a Friday. -/
def statsMonFri (L : Ledger) (r : String) : Nat :=
  (getPicks L r).countP (fun sid =>
    match L.shifts.find? (fun s => decide (s.id = sid)) with
    | some s => isMonOrFri s.date
    | none => false)

/-- The fairness key (totalClaims, undesirableClaims) of the source's
metric helper. -/
def fairKey (L : Ledger) (r : String) : Nat × Nat :=
  (statsTotal L r, statsMonFri L r)

/-- whoIsAssigned(shiftId): the residents whose claim list contains the
given shift id, in resident order. -/
def whoIsAssigned (L : Ledger) (sid : String) : List String :=
  (residentsOf L).filter (fun r => decide (sid ∈ getPicks L r))

/-- Insert one element into a list sorted by the boolean comparator le
(smallest first). -/
def insertRanked {α : Type} (le : α → α → Bool) (a : α) : List α → List α
  | [] => [a]
  | b :: rest => if le a b then a :: b :: rest else b :: insertRanked le a rest

/-- Insertion sort by the boolean comparator le; models the source's
Array.prototype.sort(comparator) calls (only the order of the output is
relied on, which insertion sort reproduces). -/
def sortRanked {α : Type} (le : α → α → Bool) : List α → List α
  | [] => []
  | a :: rest => insertRanked le a (sortRanked le rest)

/-- Strict lexicographic comparison of fairness keys: fewer total claims
first, ties by fewer Monday/Friday claims (the source's better helper with
the default monFriWeight = 1). -/
def keyLtb (x y : Nat × Nat) : Bool :=
  decide (x.1 < y.1) || (decide (x.1 = y.1) && decide (x.2 < y.2))

/-- Non-strict lexicographic order on fairness keys, used to state the
ranking theorems. -/
def keyLeP (x y : Nat × Nat) : Prop :=
  x.1 < y.1 ∨ (x.1 = y.1 ∧ x.2 ≤ y.2)

/-- The comparator used by resolveConflictsFair's sort: strictly smaller
fairness key ranks first; exact key ties fall to the injected tie-break tb
(the source's Math.random() - 0.5). -/
def rankLe (L : Ledger) (tb : String → String → Bool) (a b : String) : Bool :=
  keyLtb (fairKey L a) (fairKey L b) ||
    (decide (fairKey L a = fairKey L b) && tb a b)

/-- Remove the contested shift id from the claim list of every contender
except the winner: the source's loop
for r of contenders, if r is not the winner, picks[r] = picks[r] minus id. -/
def removeOthers (C : List String) (w sid : String) :
    List (String × List String) → List (String × List String)
  | [] => []
  | p :: rest =>
    (if p.1 ∈ C ∧ p.1 ≠ w then (p.1, p.2.filter (fun i => decide (i ≠ sid))) else p)
      :: removeOthers C w sid rest

/-- Resolve a single shift of resolveConflictsFair's main loop: skip when
there is at most one contender, otherwise rank the contenders by fairness
key (tie-break tb) and strip the shift from every loser's claim list. -/
def resolveShift (tb : String → String → Bool) (A : Ledger)
    (C : List String) (sid : String) : Ledger :=
  if C.length ≤ 1 then A
  else
    match sortRanked (rankLe A tb) C with
    | [] => A
    | w :: _ => { A with picks := removeOthers C w sid A.picks }

/-- Whether two distinct contenders have exactly equal fairness keys in
ledger A, i.e. whether the sort would consult Math.random. -/
def tieAmong (A : Ledger) (C : List String) : Bool :=
  C.any (fun a => C.any (fun b => decide (a ≠ b) && decide (fairKey A a = fairKey A b)))

/-- resolveShift together with a flag recording whether the random
tie-break path could have been consulted for this shift. -/
def resolveShiftAux (tb : String → String → Bool) (A : Ledger)
    (C : List String) (sid : String) : Ledger × Bool :=
  (resolveShift tb A C sid, if C.length ≤ 1 then false else tieAmong A C)

/-- The resolver pass: fold over the registry in order.  The contender
list of every shift is the one precomputed from the ledger L0 at the start
of the pass (the source's idToResidents map), while fairness keys are read
from the current ledger. -/
def resolveFold (L0 : Ledger) (tb : String → String → String → Bool) :
    List Shift → Ledger → Ledger
  | [], A => A
  | s :: rest, A =>
    resolveFold L0 tb rest (resolveShift (tb s.id) A (whoIsAssigned L0 s.id) s.id)

/-- resolveConflictsFair of the clean static version.  tb receives the
shift id and the two compared residents and models the random tie-break. -/
def resolveConflictsFair (tb : String → String → String → Bool) (L : Ledger) : Ledger :=
  resolveFold L tb L.shifts L

/-- Instrumented resolver pass, additionally accumulating whether any
processed conflict had an exact fairness-key tie. -/
def resolveFoldAux (L0 : Ledger) (tb : String → String → String → Bool) :
    List Shift → Ledger × Bool → Ledger × Bool
  | [], acc => acc
  | s :: rest, acc =>
    let r := resolveShiftAux (tb s.id) acc.1 (whoIsAssigned L0 s.id) s.id
    resolveFoldAux L0 tb rest (r.1, acc.2 || r.2)

/-- resolveConflictsFair together with the tie flag: the second component
is false exactly when no processed conflict ever had two distinct
contenders with equal fairness keys, i.e. the run never consulted the
random tie-break. -/
def resolveConflictsFairAux (tb : String → String → String → Bool) (L : Ledger) :
    Ledger × Bool :=
  resolveFoldAux L tb L.shifts (L, false)

/-- Error kinds reported by the core commands. -/
inductive CoreError
  | QuotaExceeded
  | DuplicateShift
  | EmptyInput
deriving DecidableEq

/-- Replace resident r's claim list (state.picks[r] = ids); a resident
without a picks entry is left untouched (hydrateResidents guarantees the
entry exists in the app). -/
def setPicks (L : Ledger) (r : String) (ids : List String) : Ledger :=
  { L with picks := L.picks.map (fun p => if p.1 = r then (p.1, ids) else p) }

/-- The claim command, translated from the checked branch of the planning
checkbox handler of the clean static version: reject with QuotaExceeded
when the claim list is already at config.slotsPerResident, otherwise append
the id unless it is already present.  (The AlreadyFinished lock is enforced
one level up by disabling the checkbox.) -/
def claimShift (L : Ledger) (r sid : String) : Except CoreError Ledger :=
  let arr := getPicks L r
  if L.slots ≤ arr.length then .error .QuotaExceeded
  else if sid ∈ arr then .ok L
  else .ok (setPicks L r (arr ++ [sid]))

/-- The unclaim command, translated from the unchecked branch of the same
handler: picks[r] = picks[r] minus the id (no-op when absent). -/
def unclaimShift (L : Ledger) (r sid : String) : Ledger :=
  setPicks L r ((getPicks L r).filter (fun i => decide (i ≠ sid)))

/-- A resident action on the pick ledger. -/
inductive PickOp
  | claim (r sid : String)
  | unclaim (r sid : String)

/-- Apply one action; a failed claim leaves the ledger as it was (the
handler toasts and returns). -/
def applyPickOp (L : Ledger) : PickOp → Ledger
  | .claim r sid =>
    match claimShift L r sid with
    | .ok L' => L'
    | .error _ => L
  | .unclaim r sid => unclaimShift L r sid

/-- Apply a sequence of claim/unclaim actions from left to right. -/
def applyPickOps (L : Ledger) (ops : List PickOp) : Ledger :=
  ops.foldl applyPickOp L

/-- Uppercase a string character by character: the semantics of
String.prototype.toUpperCase on ASCII type names. -/
def upperString (s : String) : String :=
  String.mk (s.data.map Char.toUpper)

/-- Shift-id derivation of the clean static version:
idFor(date, type) = date ++ "__" ++ type.toUpperCase(). -/
def idFor (date ty : String) : String :=
  date ++ "__" ++ upperString ty

/-- addShift, translated from the add-guardia click handler: reject empty
inputs, reject an id already present in the registry (DuplicateShift),
otherwise push { id, date, type } onto the registry. -/
def addShift (L : Ledger) (date ty : String) : Except CoreError Ledger :=
  if date = "" ∨ ty = "" then .error .EmptyInput
  else if L.shifts.any (fun s => decide (s.id = idFor date ty)) then .error .DuplicateShift
  else .ok { L with shifts := L.shifts ++ [{ id := idFor date ty, date := date, type := ty }] }

/-- addShift as a state transformer: on error the handler alerts and
returns, leaving the state untouched. -/
def addShiftState (L : Ledger) (date ty : String) : Ledger :=
  match addShift L date ty with
  | .ok L' => L'
  | .error _ => L

/-- removeShift, translated from the admin Remove button handler: drop the
shift from the registry and strip its id from every resident's claim list. -/
def removeShift (L : Ledger) (sid : String) : Ledger :=
  { L with
    shifts := L.shifts.filter (fun s => decide (s.id ≠ sid)),
    picks := L.picks.map (fun p => (p.1, p.2.filter (fun i => decide (i ≠ sid)))) }

/-- The registry ordering used by every rendering consumer: date ascending,
then type (the source's comparator a.date < b.date ? -1 : ... :
a.type.localeCompare(b.type)). -/
def shiftLe (a b : Shift) : Bool :=
  decide (a.date < b.date) || (decide (a.date = b.date) && decide (a.type ≤ b.type))

/-- listShifts: the registry sorted by (date, type). -/
def listShifts (L : Ledger) : List Shift :=
  sortRanked shiftLe L.shifts

/-- The fall-down loop of randomAssignRemaining: walk the ranked candidate
list and give the shift to the first resident who does not already hold it
and is below quota. -/
def tryCands (A : Ledger) (sid : String) : List String → Ledger
  | [] => A
  | c :: rest =>
    if ¬ sid ∈ getPicks A c ∧ (getPicks A c).length < A.slots then
      setPicks A c (getPicks A c ++ [sid])
    else tryCands A sid rest

/-- One step of randomAssignRemaining: rank all residents by fairness key
(tie-break tb), try the top choice, and on failure proceed down the ranked
list; when every candidate fails the shift stays unassigned. -/
def assignOne (tb : String → String → Bool) (A : Ledger) (sid : String) : Ledger :=
  match sortRanked (rankLe A tb) (residentsOf A) with
  | [] => A
  | chosen :: rest =>
    if ¬ sid ∈ getPicks A chosen ∧ (getPicks A chosen).length < A.slots then
      setPicks A chosen (getPicks A chosen ++ [sid])
    else tryCands A sid rest

/-- The random-fill fold over the precomputed list of empty shifts. -/
def randomFold (tb : String → String → String → Bool) :
    List Shift → Ledger → Ledger
  | [], A => A
  | s :: rest, A => randomFold tb rest (assignOne (tb s.id) A s.id)

/-- randomAssignRemaining of the clean static version: collect the shifts
with zero claimants (from the starting ledger) and assign each in registry
order.  An empty collection makes the whole pass the identity, which also
models the early return. -/
def randomAssignRemaining (tb : String → String → String → Bool) (L : Ledger) : Ledger :=
  randomFold tb (L.shifts.filter (fun s => decide ((whoIsAssigned L s.id).length = 0))) L

/-- Parse a US date string "MM/DD/YYYY" into (year, month, day) numeric
fields, mirroring the slash branch of computeMonFriCount in src/script.js. -/
def parseUsDate (d : String) : Option (Nat × Nat × Nat) :=
  match (splitOnChar '/' d.data).map digitSegToNat? with
  | [some m, some dd, some y] => some (y, m, dd)
  | _ => none

/-- The Monday/Friday test of computeMonFriCount in src/script.js: an ISO
date (containing a dash) or a US date (containing a slash) is parsed
numerically and checked via the UTC day of week.  The source's final
fallback builds a local-time Date, which the app never reaches because its
date inputs are always ISO; here it classifies as not Monday/Friday. -/
def jsDateIsMonFri (d : String) : Bool :=
  if d.data.contains '-' then
    match parseIsoDate d with
    | some (y, m, dd) => decide (zellerDow y m dd = 1) || decide (zellerDow y m dd = 5)
    | none => false
  else if d.data.contains '/' then
    match parseUsDate d with
    | some (y, m, dd) => decide (zellerDow y m dd = 1) || decide (zellerDow y m dd = 5)
    | none => false
  else false

/-- A shift of the legacy src/script.js variant, which stores the assigned
residents on the shift object itself, in parallel with userPicks. -/
structure JsShift where
  id : String
  date : String
  type : String
  assigned : List String
deriving DecidableEq

/-- The mutable globals of src/script.js: shifts, userPicks (one entry per
user), finishedUsers, maxShiftsPerUser. -/
structure JsState where
  shifts : List JsShift
  userPicks : List (String × List String)
  finishedUsers : List (String × Bool)
  maxShiftsPerUser : Nat
deriving DecidableEq

/-- Read a boolean flag from an association list; missing keys read as
false (JavaScript's undefined is falsy). -/
def lookupFlag : List (String × Bool) → String → Bool
  | [], _ => false
  | p :: rest, u => if p.1 = u then p.2 else lookupFlag rest u

/-- userPicks[u] of the legacy variant. -/
def jsPicks (st : JsState) (u : String) : List String :=
  lookupPicks st.userPicks u

/-- computeMonFriCount(user) of src/script.js: how many of the user's
picked ids resolve to a registry shift dated Monday or Friday. -/
def computeMonFriCount (st : JsState) (u : String) : Nat :=
  (jsPicks st u).countP (fun sid =>
    match st.shifts.find? (fun s => decide (s.id = sid)) with
    | some s => jsDateIsMonFri s.date
    | none => false)

/-- Apply f to the first shift whose id matches, leaving the rest alone:
the source finds the shift object with Array.find and mutates it in place. -/
def updateFirstShift (sid : String) (f : JsShift → JsShift) : List JsShift → List JsShift
  | [] => []
  | s :: rest => if s.id = sid then f s :: rest else s :: updateFirstShift sid f rest

/-- Replace userPicks[u] in the legacy state. -/
def setJsPicks (st : JsState) (u : String) (ids : List String) : JsState :=
  { st with userPicks := st.userPicks.map (fun p => if p.1 = u then (p.1, ids) else p) }

/-- Drop the current user from a shift's assigned array, mirroring
shift.assigned = shift.assigned.filter(u => u !== currentUser). -/
def dropAssigned (cu : String) (s : JsShift) : JsShift :=
  { s with assigned := s.assigned.filter (fun u => decide (u ≠ cu)) }

/-- Push the current user onto a shift's assigned array, mirroring
shift.assigned.push(currentUser). -/
def pushAssigned (cu : String) (s : JsShift) : JsShift :=
  { s with assigned := s.assigned ++ [cu] }

/-- The body of handleSelect once the clicked shift has been found: remove
an already-assigned user (splicing the id out of their picks), otherwise
check the quota and, below it, push the user onto the shift and the id
onto their picks. -/
def handleSelectFound (st : JsState) (cu sid : String) (shift : JsShift) : JsState :=
  if cu ∈ shift.assigned then
    let st1 : JsState := { st with shifts := updateFirstShift sid (dropAssigned cu) st.shifts }
    setJsPicks st1 cu ((jsPicks st1 cu).erase sid)
  else
    if st.maxShiftsPerUser ≤ (jsPicks st cu).length then st
    else
      let st1 : JsState := { st with shifts := updateFirstShift sid (pushAssigned cu) st.shifts }
      setJsPicks st1 cu (jsPicks st1 cu ++ [sid])

/-- handleSelect(shiftId) of src/script.js for the logged-in user cu: a
toggle.  Locked users and unknown shifts are no-ops; the work on a found
shift is in handleSelectFound. -/
def handleSelect (st : JsState) (cu sid : String) : JsState :=
  if lookupFlag st.finishedUsers cu then st
  else
    match st.shifts.find? (fun s => decide (s.id = sid)) with
    | none => st
    | some shift => handleSelectFound st cu sid shift

/-- The loop body of resolveConflicts in src/script.js, comparing the
current element res against the running chosen ch: fewest Monday/Friday
assignments first, then fewest total assignments, then the injected coin
(Math.random < 0.5). -/
def jsBetterStep (st : JsState) (coin : String → String → Bool) (ch res : String) : String :=
  let countA := computeMonFriCount st res
  let countB := computeMonFriCount st ch
  if countA < countB then res
  else if countA = countB then
    if (jsPicks st res).length < (jsPicks st ch).length then res
    else if (jsPicks st res).length = (jsPicks st ch).length then
      if coin res ch then res else ch
    else ch
  else ch

/-- resolveConflicts of src/script.js: every over-claimed shift keeps only
a single winner (chosen = first claimant, then folded through the
comparison loop; note the winner computation reads the pre-pass userPicks,
which the source only rebuilds after the loop), and userPicks is then
rebuilt from the assigned arrays in registry order. -/
def jsResolveConflicts (coin : String → String → Bool) (st : JsState) : JsState :=
  let pickOne : JsShift → JsShift := fun s =>
    if s.assigned.length ≤ 1 then s
    else
      match s.assigned with
      | [] => s
      | a :: rest => { s with assigned := [rest.foldl (jsBetterStep st coin) a] }
  let st1 : JsState := { st with shifts := st.shifts.map pickOne }
  let rebuilt : List (String × List String) := st1.userPicks.map (fun p =>
    (p.1, (st1.shifts.filter (fun s => decide (p.1 ∈ s.assigned))).map JsShift.id))
  { st1 with userPicks := rebuilt }

/-- The stored assigned arrays of the legacy variant agree with the picks
ledger: a user is on a shift's assigned array exactly when the shift's id
is in the user's picks. -/
def JsConsistent (st : JsState) : Prop :=
  ∀ s ∈ st.shifts, ∀ u : String, u ∈ s.assigned ↔ s.id ∈ jsPicks st u

/-- A tie-break that always prefers the left operand; one concrete
resolution of the Math.random nondeterminism, used in the scenarios. -/
def tbTrue : String → String → String → Bool := fun _ _ _ => true

/-- The opposite tie-break, used to exercise tie-break independence. -/
def tbFalse : String → String → String → Bool := fun _ _ _ => false

/-- The contested Monday shift of the spec scenarios:
S1 = (2025-09-01, Puerta), a Monday. -/
def shiftS1 : Shift := ⟨"2025-09-01__PUERTA", "2025-09-01", "Puerta"⟩

/-- A Wednesday shift (2025-09-03, Puerta). -/
def shiftW1 : Shift := ⟨"2025-09-03__PUERTA", "2025-09-03", "Puerta"⟩

/-- Another Wednesday shift (2025-09-10, Puerta). -/
def shiftW2 : Shift := ⟨"2025-09-10__PUERTA", "2025-09-10", "Puerta"⟩

/-- The realizable form of the spec's fairness scenario: A and B both
claim the Monday shift S1; B additionally holds two Wednesday shifts.
Fairness keys: A = (1, 1), B = (3, 1) (B's undesirable count necessarily
includes the contested Monday shift itself). -/
def scenC1 : Ledger :=
  { shifts := [shiftS1, shiftW1, shiftW2],
    picks := [("Resident A", [shiftS1.id]),
              ("Resident B", [shiftS1.id, shiftW1.id, shiftW2.id])],
    slots := 4 }

/-- A ledger exercising fresh fairness-key recomputation: S1 is contested
by A and B, W1 by B and C.  Initial keys: A = (1,1), B = (2,1), C = (2,0);
after A wins S1, B's key drops to (1,0), so B beats C on W1 even though
C's initial (memoized) key (2,0) is smaller than B's initial (2,1). -/
def scenC3 : Ledger :=
  { shifts := [shiftS1, shiftW1, shiftW2],
    picks := [("Resident A", [shiftS1.id]),
              ("Resident B", [shiftS1.id, shiftW1.id]),
              ("Resident C", [shiftW1.id, shiftW2.id])],
    slots := 4 }

/-- The resolved form of scenC3: A keeps S1, B keeps W1, C keeps W2. -/
def scenC3r : Ledger :=
  { scenC3 with
    picks := [("Resident A", [shiftS1.id]),
              ("Resident B", [shiftW1.id]),
              ("Resident C", [shiftW2.id])] }

/-- A resident at quota: four claims against slotsPerResident = 4, the
first of which is the Monday shift S1. -/
def quotaLedger : Ledger :=
  { shifts := [shiftS1, shiftW1, shiftW2, ⟨"2025-09-05__PUERTA", "2025-09-05", "Puerta"⟩],
    picks := [("Resident 1",
      [shiftS1.id, shiftW1.id, shiftW2.id, "2025-09-05__PUERTA"])],
    slots := 4 }

/-- The resolved form of scenC1: A keeps the contested Monday shift, B
keeps only the two Wednesday shifts. -/
def scenC1r : Ledger :=
  { scenC1 with
    picks := [("Resident A", [shiftS1.id]),
              ("Resident B", [shiftW1.id, shiftW2.id])] }

/-- An already-resolved ledger: every shift has exactly one claimant. -/
def scenResolved : Ledger :=
  { shifts := [shiftS1, shiftW1],
    picks := [("Resident 1", [shiftS1.id]), ("Resident 2", [shiftW1.id])],
    slots := 4 }

/-- The removal scenario of the spec: two residents have both claimed S1. -/
def scenRemove : Ledger :=
  { shifts := [shiftS1],
    picks := [("Resident 1", [shiftS1.id]), ("Resident 2", [shiftS1.id])],
    slots := 4 }

/-- An empty Ledger with the default quota. -/
def emptyLedger : Ledger :=
  { shifts := [], picks := [("Resident 1", [])], slots := 4 }

/-- The registry after one successful addShift("2025-09-01", "Puerta"). -/
def oneShiftLedger : Ledger :=
  addShiftState emptyLedger "2025-09-01" "Puerta"

/-- A small legacy-variant state: one shift, one user, nothing assigned. -/
def jsScen : JsState :=
  { shifts := [⟨shiftS1.id, "2025-09-01", "Puerta", []⟩],
    userPicks := [("Resident 1", [])],
    finishedUsers := [],
    maxShiftsPerUser := 4 }

/-! Helper lemmas about the ranking sort. -/

theorem mem_insertRanked {α : Type} (le : α → α → Bool) (a x : α) :
    ∀ l : List α, x ∈ insertRanked le a l ↔ x = a ∨ x ∈ l := by
  intro l
  induction l with
  | nil => simp [insertRanked]
  | cons b rest ih =>
    simp only [insertRanked]
    by_cases h : le a b = true
    · rw [if_pos h]
      simp only [List.mem_cons]
    · rw [if_neg h]
      simp only [List.mem_cons, ih]
      tauto

theorem mem_sortRanked {α : Type} (le : α → α → Bool) (x : α) :
    ∀ l : List α, x ∈ sortRanked le l ↔ x ∈ l := by
  intro l
  induction l with
  | nil => simp [sortRanked]
  | cons a rest ih =>
    simp only [sortRanked]
    rw [mem_insertRanked, ih]
    simp only [List.mem_cons]

theorem sortRanked_ne_nil {α : Type} (le : α → α → Bool) (l : List α) (h : l ≠ []) :
    sortRanked le l ≠ [] := by
  cases l with
  | nil => exact absurd rfl h
  | cons a rest =>
    intro hs
    have : a ∈ sortRanked le (a :: rest) := by
      rw [mem_sortRanked]
      exact List.mem_cons_self a rest
    rw [hs] at this
    exact absurd this (List.not_mem_nil a)

theorem keyLeP_refl (x : Nat × Nat) : keyLeP x x := by
  right
  exact ⟨rfl, le_refl _⟩

theorem keyLeP_trans {x y z : Nat × Nat} (h1 : keyLeP x y) (h2 : keyLeP y z) :
    keyLeP x z := by
  rcases h1 with h1 | ⟨h1a, h1b⟩ <;> rcases h2 with h2 | ⟨h2a, h2b⟩
  · left
    omega
  · left
    omega
  · left
    omega
  · right
    omega

theorem keyLeP_antisymm {x y : Nat × Nat} (h1 : keyLeP x y) (h2 : keyLeP y x) :
    x = y := by
  rw [Prod.ext_iff]
  rcases h1 with h1 | ⟨h1a, h1b⟩ <;> rcases h2 with h2 | ⟨h2a, h2b⟩ <;> omega

theorem keyLtb_eq_true_iff {x y : Nat × Nat} :
    keyLtb x y = true ↔ x.1 < y.1 ∨ (x.1 = y.1 ∧ x.2 < y.2) := by
  simp [keyLtb]

theorem rankLe_true_keyLe {L : Ledger} {tb : String → String → Bool} {a b : String}
    (h : rankLe L tb a b = true) : keyLeP (fairKey L a) (fairKey L b) := by
  simp only [rankLe, Bool.or_eq_true, Bool.and_eq_true, decide_eq_true_eq] at h
  rcases h with h | ⟨h, _⟩
  · rw [keyLtb_eq_true_iff] at h
    rcases h with h | ⟨h1, h2⟩
    · exact Or.inl h
    · exact Or.inr ⟨h1, le_of_lt h2⟩
  · rw [h]
    exact keyLeP_refl _

theorem rankLe_false_keyLe {L : Ledger} {tb : String → String → Bool} {a b : String}
    (h : rankLe L tb a b = false) : keyLeP (fairKey L b) (fairKey L a) := by
  simp only [rankLe, Bool.or_eq_false_iff, Bool.and_eq_false_iff] at h
  have hlt := h.1
  rw [Bool.eq_false_iff, Ne, keyLtb_eq_true_iff] at hlt
  push_neg at hlt
  unfold keyLeP
  omega

theorem insertRanked_headMin {α : Type} {le : α → α → Bool} {k : α → Nat × Nat}
    (hT : ∀ a b, le a b = true → keyLeP (k a) (k b))
    (hF : ∀ a b, le a b = false → keyLeP (k b) (k a))
    (l : List α) (a h : α) (t : List α)
    (hprem : ∀ h0 t0, l = h0 :: t0 → ∀ x ∈ l, keyLeP (k h0) (k x))
    (heq : insertRanked le a l = h :: t) :
    ∀ x, (x = a ∨ x ∈ l) → keyLeP (k h) (k x) := by
  cases l with
  | nil =>
    simp only [insertRanked, List.cons.injEq] at heq
    intro x hx
    rcases hx with hx | hx
    · rw [hx, ← heq.1]
      exact keyLeP_refl _
    · exact absurd hx (List.not_mem_nil x)
  | cons b rest =>
    simp only [insertRanked] at heq
    by_cases hab : le a b = true
    · rw [if_pos hab] at heq
      injection heq with h1 h2
      subst h1
      intro x hx
      rcases hx with hx | hx
      · rw [hx]
        exact keyLeP_refl _
      · rcases List.mem_cons.mp hx with hxb | hxr
        · rw [hxb]
          exact hT a b hab
        · exact keyLeP_trans (hT a b hab) (hprem b rest rfl x hx)
    · rw [if_neg hab] at heq
      injection heq with h1 h2
      subst h1
      intro x hx
      rcases hx with hx | hx
      · rw [hx]
        exact hF a b (Bool.eq_false_iff.mpr hab)
      · exact hprem b rest rfl x hx

theorem sortRanked_headMin {α : Type} {le : α → α → Bool} {k : α → Nat × Nat}
    (hT : ∀ a b, le a b = true → keyLeP (k a) (k b))
    (hF : ∀ a b, le a b = false → keyLeP (k b) (k a)) :
    ∀ (l : List α) (h : α) (t : List α), sortRanked le l = h :: t →
      ∀ x ∈ l, keyLeP (k h) (k x) := by
  intro l
  induction l with
  | nil =>
    intro h t heq
    simp [sortRanked] at heq
  | cons a rest ih =>
    intro h t heq x hx
    simp only [sortRanked] at heq
    have hprem : ∀ h0 t0, sortRanked le rest = h0 :: t0 →
        ∀ y ∈ sortRanked le rest, keyLeP (k h0) (k y) := by
      intro h0 t0 h0eq y hy
      exact ih h0 t0 h0eq y ((mem_sortRanked le y rest).mp hy)
    have hmain := insertRanked_headMin hT hF (sortRanked le rest) a h t hprem heq
    rcases List.mem_cons.mp hx with hxa | hxr
    · exact hmain x (Or.inl hxa)
    · exact hmain x (Or.inr ((mem_sortRanked le x rest).mpr hxr))

/-! Helper lemmas about picks association lists. -/

theorem lookupPicks_map_values (g : List String → List String) (hg : g [] = [])
    (picks : List (String × List String)) (r : String) :
    lookupPicks (picks.map (fun p => (p.1, g p.2))) r = g (lookupPicks picks r) := by
  induction picks with
  | nil => simp [lookupPicks, hg]
  | cons p rest ih =>
    simp only [List.map_cons, lookupPicks]
    by_cases h : p.1 = r
    · rw [if_pos h, if_pos h]
    · rw [if_neg h, if_neg h, ih]

theorem lookupPicks_set_self (picks : List (String × List String)) (r : String)
    (ids : List String) (hmem : r ∈ picks.map Prod.fst) :
    lookupPicks (picks.map (fun p => if p.1 = r then (p.1, ids) else p)) r = ids := by
  induction picks with
  | nil => simp at hmem
  | cons p rest ih =>
    simp only [List.map_cons]
    by_cases h : p.1 = r
    · rw [if_pos h]
      simp only [lookupPicks, if_pos h]
    · rw [if_neg h]
      simp only [lookupPicks, if_neg h]
      apply ih
      simp only [List.map_cons, List.mem_cons] at hmem
      rcases hmem with hmem | hmem
      · exact absurd hmem.symm h
      · exact hmem

theorem lookupPicks_set_ne (picks : List (String × List String)) (r r' : String)
    (ids : List String) (hne : r' ≠ r) :
    lookupPicks (picks.map (fun p => if p.1 = r then (p.1, ids) else p)) r' =
      lookupPicks picks r' := by
  induction picks with
  | nil => simp [lookupPicks]
  | cons p rest ih =>
    simp only [List.map_cons]
    by_cases h : p.1 = r
    · rw [if_pos h]
      have hne1 : ¬ p.1 = r' := fun hh => hne (hh.symm.trans h)
      simp only [lookupPicks, if_neg hne1]
      exact ih
    · rw [if_neg h]
      simp only [lookupPicks]
      by_cases h2 : p.1 = r'
      · rw [if_pos h2, if_pos h2]
      · rw [if_neg h2, if_neg h2]
        exact ih

theorem lookupPicks_set_not_mem (picks : List (String × List String)) (r : String)
    (ids : List String) (hmem : r ∉ picks.map Prod.fst) :
    picks.map (fun p => if p.1 = r then (p.1, ids) else p) = picks := by
  induction picks with
  | nil => rfl
  | cons p rest ih =>
    simp only [List.map_cons, List.mem_cons] at hmem
    push_neg at hmem
    simp only [List.map_cons]
    rw [if_neg (fun h => hmem.1 h.symm)]
    rw [ih hmem.2]

theorem lookupPicks_eq_nil_of_not_mem (picks : List (String × List String)) (r : String)
    (h : r ∉ picks.map Prod.fst) : lookupPicks picks r = [] := by
  induction picks with
  | nil => rfl
  | cons p rest ih =>
    simp only [List.map_cons, List.mem_cons] at h
    push_neg at h
    simp only [lookupPicks, if_neg (fun hh : p.1 = r => h.1 hh.symm)]
    exact ih h.2

theorem getPicks_setPicks_self (L : Ledger) (r : String) (ids : List String) :
    getPicks (setPicks L r ids) r = if r ∈ residentsOf L then ids else [] := by
  by_cases h : r ∈ residentsOf L
  · rw [if_pos h]
    exact lookupPicks_set_self L.picks r ids h
  · rw [if_neg h]
    show lookupPicks (L.picks.map _) r = []
    rw [lookupPicks_set_not_mem L.picks r ids h]
    exact lookupPicks_eq_nil_of_not_mem L.picks r h

theorem getPicks_setPicks_ne (L : Ledger) (r r' : String) (ids : List String)
    (hne : r' ≠ r) : getPicks (setPicks L r ids) r' = getPicks L r' :=
  lookupPicks_set_ne L.picks r r' ids hne

theorem setPicks_shifts (L : Ledger) (r : String) (ids : List String) :
    (setPicks L r ids).shifts = L.shifts := rfl

theorem setPicks_slots (L : Ledger) (r : String) (ids : List String) :
    (setPicks L r ids).slots = L.slots := rfl

theorem setPicks_residents (L : Ledger) (r : String) (ids : List String) :
    residentsOf (setPicks L r ids) = residentsOf L := by
  show (L.picks.map _).map Prod.fst = L.picks.map Prod.fst
  induction L.picks with
  | nil => rfl
  | cons p rest ih =>
    simp only [List.map_cons, List.cons.injEq]
    constructor
    · by_cases h : p.1 = r
      · rw [if_pos h]
      · rw [if_neg h]
    · exact ih

/-! Helper lemmas about removeOthers. -/

theorem lookupPicks_removeOthers (C : List String) (w sid : String)
    (picks : List (String × List String)) (r : String) :
    lookupPicks (removeOthers C w sid picks) r =
      if r ∈ C ∧ r ≠ w then (lookupPicks picks r).filter (fun i => decide (i ≠ sid))
      else lookupPicks picks r := by
  induction picks with
  | nil =>
    simp only [removeOthers, lookupPicks]
    by_cases h : r ∈ C ∧ r ≠ w
    · rw [if_pos h]
      rfl
    · rw [if_neg h]
  | cons p rest ih =>
    by_cases hp : p.1 ∈ C ∧ p.1 ≠ w
    · by_cases hr : p.1 = r
      · subst hr
        simp [removeOthers, lookupPicks, hp]
      · simp only [removeOthers, if_pos hp, lookupPicks, if_neg hr]
        exact ih
    · by_cases hr : p.1 = r
      · subst hr
        simp [removeOthers, lookupPicks, hp]
      · simp only [removeOthers, if_neg hp, lookupPicks, if_neg hr]
        exact ih

theorem removeOthers_keys (C : List String) (w sid : String)
    (picks : List (String × List String)) :
    (removeOthers C w sid picks).map Prod.fst = picks.map Prod.fst := by
  induction picks with
  | nil => rfl
  | cons p rest ih =>
    simp only [removeOthers, List.map_cons, List.cons.injEq]
    constructor
    · by_cases hp : p.1 ∈ C ∧ p.1 ≠ w
      · rw [if_pos hp]
      · rw [if_neg hp]
    · exact ih

/-! Generic filter helpers. -/

theorem length_filter_le_of_imp {α : Type} (p q : α → Bool) (l : List α)
    (h : ∀ a ∈ l, p a = true → q a = true) :
    (l.filter p).length ≤ (l.filter q).length := by
  induction l with
  | nil => simp
  | cons a rest ih =>
    have ih' := ih (fun x hx hp => h x (List.mem_cons_of_mem a hx) hp)
    by_cases hp : p a = true
    · rw [List.filter_cons_of_pos hp, List.filter_cons_of_pos (h a (List.mem_cons_self a rest) hp)]
      simpa using ih'
    · rw [List.filter_cons_of_neg (by simpa using hp)]
      by_cases hq : q a = true
      · rw [List.filter_cons_of_pos hq]
        exact le_trans ih' (by simp)
      · rw [List.filter_cons_of_neg (by simpa using hq)]
        exact ih'

theorem length_filter_le_one_of_all_eq {α : Type} [DecidableEq α] (p : α → Bool)
    (l : List α) (w : α) (hnd : l.Nodup)
    (hall : ∀ x ∈ l, p x = true → x = w) :
    (l.filter p).length ≤ 1 := by
  induction l with
  | nil => simp
  | cons a rest ih =>
    have hnd' := (List.nodup_cons.mp hnd).2
    have hna := (List.nodup_cons.mp hnd).1
    by_cases hp : p a = true
    · rw [List.filter_cons_of_pos hp]
      have haw : a = w := hall a (List.mem_cons_self a rest) hp
      have : rest.filter p = [] := by
        rw [List.filter_eq_nil_iff]
        intro x hx hpx
        have hxw : x = w := hall x (List.mem_cons_of_mem a hx) hpx
        apply hna
        rw [haw.trans hxw.symm]
        exact hx
      rw [this]
      simp
    · rw [List.filter_cons_of_neg (by simpa using hp)]
      exact ih hnd' (fun x hx hpx => hall x (List.mem_cons_of_mem a hx) hpx)

theorem filter_eq_singleton {α : Type} [DecidableEq α] (p : α → Bool)
    (l : List α) (w : α) (hnd : l.Nodup) (hw : w ∈ l) (hpw : p w = true)
    (hall : ∀ x ∈ l, p x = true → x = w) :
    l.filter p = [w] := by
  induction l with
  | nil => simp at hw
  | cons a rest ih =>
    have hnd' := (List.nodup_cons.mp hnd).2
    have hna := (List.nodup_cons.mp hnd).1
    by_cases hp : p a = true
    · rw [List.filter_cons_of_pos hp]
      have haw : a = w := hall a (List.mem_cons_self a rest) hp
      have : rest.filter p = [] := by
        rw [List.filter_eq_nil_iff]
        intro x hx hpx
        have hxw : x = w := hall x (List.mem_cons_of_mem a hx) hpx
        apply hna
        rw [haw.trans hxw.symm]
        exact hx
      rw [this, haw]
    · rw [List.filter_cons_of_neg (by simpa using hp)]
      have haw : a ≠ w := fun h => by rw [h] at hp; exact hp hpw
      have hw' : w ∈ rest := by
        rcases List.mem_cons.mp hw with h | h
        · exact absurd h.symm haw
        · exact h
      exact ih hnd' hw' (fun x hx hpx => hall x (List.mem_cons_of_mem a hx) hpx)

/-! The shrink relation: a ledger reachable during a resolver pass has the
same registry, quota and resident keys as the starting ledger, and every
claim still present was present at the start. -/

def Shrinks (A B : Ledger) : Prop :=
  B.shifts = A.shifts ∧ B.slots = A.slots ∧ residentsOf B = residentsOf A ∧
    ∀ r sid, sid ∈ getPicks B r → sid ∈ getPicks A r

theorem Shrinks.refl (A : Ledger) : Shrinks A A :=
  ⟨rfl, rfl, rfl, fun _ _ h => h⟩

theorem Shrinks.trans {A B C : Ledger} (h1 : Shrinks A B) (h2 : Shrinks B C) :
    Shrinks A C :=
  ⟨h2.1.trans h1.1, h2.2.1.trans h1.2.1, h2.2.2.1.trans h1.2.2.1,
    fun r sid h => h1.2.2.2 r sid (h2.2.2.2 r sid h)⟩

theorem resolveShift_shrinks (tb : String → String → Bool) (A : Ledger)
    (C : List String) (sid : String) : Shrinks A (resolveShift tb A C sid) := by
  unfold resolveShift
  by_cases h : C.length ≤ 1
  · rw [if_pos h]
    exact Shrinks.refl A
  · rw [if_neg h]
    cases hs : sortRanked (rankLe A tb) C with
    | nil => exact Shrinks.refl A
    | cons w t =>
      refine ⟨rfl, rfl, ?_, ?_⟩
      · show (removeOthers C w sid A.picks).map Prod.fst = _
        exact removeOthers_keys C w sid A.picks
      · intro r i hi
        show i ∈ getPicks A r
        have : getPicks { A with picks := removeOthers C w sid A.picks } r =
            lookupPicks (removeOthers C w sid A.picks) r := rfl
        rw [this, lookupPicks_removeOthers] at hi
        by_cases hc : r ∈ C ∧ r ≠ w
        · rw [if_pos hc] at hi
          exact (List.mem_filter.mp hi).1
        · rw [if_neg hc] at hi
          exact hi

theorem whoIsAssigned_length_mono {A B : Ledger} (h : Shrinks A B) (sid : String) :
    (whoIsAssigned B sid).length ≤ (whoIsAssigned A sid).length := by
  unfold whoIsAssigned
  rw [h.2.2.1]
  exact length_filter_le_of_imp _ _ (residentsOf A)
    (fun r _ hp => by
      rw [decide_eq_true_eq] at hp ⊢
      exact h.2.2.2 r sid hp)

theorem whoIsAssigned_sub_residents {L : Ledger} {sid r : String}
    (h : r ∈ whoIsAssigned L sid) : r ∈ residentsOf L :=
  (List.mem_filter.mp h).1

theorem mem_whoIsAssigned_iff {L : Ledger} {sid r : String} :
    r ∈ whoIsAssigned L sid ↔ r ∈ residentsOf L ∧ sid ∈ getPicks L r := by
  unfold whoIsAssigned
  rw [List.mem_filter, decide_eq_true_eq]

theorem getPicks_resolveShift {A : Ledger} {tb : String → String → Bool}
    {C : List String} {w sid : String} {t : List String}
    (hlen : ¬ C.length ≤ 1) (hs : sortRanked (rankLe A tb) C = w :: t) (r : String) :
    getPicks (resolveShift tb A C sid) r =
      if r ∈ C ∧ r ≠ w then (getPicks A r).filter (fun i => decide (i ≠ sid))
      else getPicks A r := by
  unfold resolveShift
  rw [if_neg hlen, hs]
  exact lookupPicks_removeOthers C w sid A.picks r

theorem residentsOf_resolveShift {A : Ledger} {tb : String → String → Bool}
    {C : List String} {sid : String} :
    residentsOf (resolveShift tb A C sid) = residentsOf A := by
  exact (resolveShift_shrinks tb A C sid).2.2.1

/-- After resolving one genuinely conflicted shift, the shift has at most
one surviving claimant, for any ledger A reachable by shrinking from the
pass's starting ledger L (whose precomputed contender list is used). -/
theorem resolveShift_le_one {L A : Ledger} (tb : String → String → Bool)
    (sid : String) (hLA : Shrinks L A) (hnd : (residentsOf L).Nodup)
    (hC : 2 ≤ (whoIsAssigned L sid).length) :
    (whoIsAssigned (resolveShift tb A (whoIsAssigned L sid) sid) sid).length ≤ 1 := by
  have hlen : ¬ (whoIsAssigned L sid).length ≤ 1 := by omega
  have hCne : whoIsAssigned L sid ≠ [] := by
    intro h
    rw [h] at hC
    simp at hC
  cases hs : sortRanked (rankLe A tb) (whoIsAssigned L sid) with
  | nil => exact absurd hs (sortRanked_ne_nil _ _ hCne)
  | cons w t =>
    have hndA : (residentsOf A).Nodup := by
      rw [hLA.2.2.1]
      exact hnd
    show ((residentsOf _).filter _).length ≤ 1
    rw [residentsOf_resolveShift]
    apply length_filter_le_one_of_all_eq _ _ w hndA
    intro r hr hp
    rw [decide_eq_true_eq] at hp
    rw [getPicks_resolveShift hlen hs] at hp
    by_cases hc : r ∈ whoIsAssigned L sid ∧ r ≠ w
    · rw [if_pos hc] at hp
      have := List.mem_filter.mp hp
      simp at this
    · rw [if_neg hc] at hp
      have hrL : sid ∈ getPicks L r := hLA.2.2.2 r sid hp
      have hrC : r ∈ whoIsAssigned L sid := by
        rw [mem_whoIsAssigned_iff]
        refine ⟨?_, hrL⟩
        rw [← hLA.2.2.1]
        exact hr
      by_contra hrw
      exact hc ⟨hrC, hrw⟩

/-- Resolving a conflicted shift against the current ledger leaves exactly
the winner, who is a contender of minimal fairness key. -/
theorem resolveShift_exact {A : Ledger} (tb : String → String → Bool)
    (sid : String) (hnd : (residentsOf A).Nodup)
    (hC : 2 ≤ (whoIsAssigned A sid).length) :
    ∃ w, whoIsAssigned (resolveShift tb A (whoIsAssigned A sid) sid) sid = [w] ∧
      w ∈ whoIsAssigned A sid ∧
      (∀ r ∈ whoIsAssigned A sid, keyLeP (fairKey A w) (fairKey A r)) := by
  have hlen : ¬ (whoIsAssigned A sid).length ≤ 1 := by omega
  have hCne : whoIsAssigned A sid ≠ [] := by
    intro h
    rw [h] at hC
    simp at hC
  cases hs : sortRanked (rankLe A tb) (whoIsAssigned A sid) with
  | nil => exact absurd hs (sortRanked_ne_nil _ _ hCne)
  | cons w t =>
    have hwC : w ∈ whoIsAssigned A sid := by
      have : w ∈ sortRanked (rankLe A tb) (whoIsAssigned A sid) := by
        rw [hs]
        exact List.mem_cons_self w t
      exact (mem_sortRanked _ _ _).mp this
    refine ⟨w, ?_, hwC, sortRanked_headMin (k := fairKey A)
      (fun a b hab => rankLe_true_keyLe hab)
      (fun a b hab => rankLe_false_keyLe hab) _ w t hs⟩
    show (residentsOf _).filter _ = [w]
    rw [residentsOf_resolveShift]
    apply filter_eq_singleton _ _ w hnd (whoIsAssigned_sub_residents hwC)
    · rw [decide_eq_true_eq, getPicks_resolveShift hlen hs]
      rw [if_neg (fun hcc => hcc.2 rfl)]
      exact (mem_whoIsAssigned_iff.mp hwC).2
    · intro r hr hp
      rw [decide_eq_true_eq] at hp
      rw [getPicks_resolveShift hlen hs] at hp
      by_cases hc : r ∈ whoIsAssigned A sid ∧ r ≠ w
      · rw [if_pos hc] at hp
        have := List.mem_filter.mp hp
        simp at this
      · rw [if_neg hc] at hp
        have hrC : r ∈ whoIsAssigned A sid := by
          rw [mem_whoIsAssigned_iff]
          exact ⟨hr, hp⟩
        by_contra hrw
        exact hc ⟨hrC, hrw⟩

theorem resolveFold_shrinks (L0 : Ledger) (tb : String → String → String → Bool) :
    ∀ (todo : List Shift) (A : Ledger), Shrinks A (resolveFold L0 tb todo A) := by
  intro todo
  induction todo with
  | nil => exact fun A => Shrinks.refl A
  | cons s rest ih =>
    intro A
    exact Shrinks.trans
      (resolveShift_shrinks (tb s.id) A (whoIsAssigned L0 s.id) s.id) (ih _)

/-- Core of the resolver postcondition: starting from any ledger A reachable
by shrinking from L, folding the remaining shifts leaves every one of them
with at most one claimant. -/
theorem resolveFold_le_one {L : Ledger} (tb : String → String → String → Bool)
    (hnd : (residentsOf L).Nodup) :
    ∀ (todo : List Shift) (A : Ledger), Shrinks L A →
      ∀ s ∈ todo, (whoIsAssigned (resolveFold L tb todo A) s.id).length ≤ 1 := by
  intro todo
  induction todo with
  | nil =>
    intro A _ s hs
    exact absurd hs (List.not_mem_nil s)
  | cons s0 rest ih =>
    intro A hLA s hs
    simp only [resolveFold]
    set A' := resolveShift (tb s0.id) A (whoIsAssigned L s0.id) s0.id with hA'
    have hLA' : Shrinks L A' :=
      Shrinks.trans hLA (resolveShift_shrinks (tb s0.id) A (whoIsAssigned L s0.id) s0.id)
    rcases List.mem_cons.mp hs with hseq | hsr
    · subst hseq
      by_cases hc : 2 ≤ (whoIsAssigned L s.id).length
      · have h1 : (whoIsAssigned A' s.id).length ≤ 1 :=
          resolveShift_le_one (tb s.id) s.id hLA hnd hc
        have h2 : Shrinks A' (resolveFold L tb rest A') := resolveFold_shrinks L tb rest A'
        exact le_trans (whoIsAssigned_length_mono h2 s.id) h1
      · push_neg at hc
        have h1 : (whoIsAssigned A' s.id).length ≤ (whoIsAssigned L s.id).length :=
          whoIsAssigned_length_mono hLA' s.id
        have h2 : Shrinks A' (resolveFold L tb rest A') := resolveFold_shrinks L tb rest A'
        have h3 := whoIsAssigned_length_mono h2 s.id
        omega
    · exact ih A' hLA' s hsr

/-- resolveConflictsFair leaves every shift in the registry with at most
one claimant (the registry itself is untouched by the pass). -/
theorem resolveConflictsFair_le_one (tb : String → String → String → Bool)
    (L : Ledger) (hnd : (residentsOf L).Nodup) :
    ∀ s ∈ (resolveConflictsFair tb L).shifts,
      (whoIsAssigned (resolveConflictsFair tb L) s.id).length ≤ 1 := by
  intro s hs
  have hsh : (resolveConflictsFair tb L).shifts = L.shifts :=
    (resolveFold_shrinks L tb L.shifts L).1
  rw [hsh] at hs
  exact resolveFold_le_one tb hnd L.shifts L (Shrinks.refl L) s hs

/-- A resolver pass over an already-resolved ledger is the identity. -/
theorem resolveFold_id {L : Ledger} (tb : String → String → String → Bool) :
    ∀ (todo : List Shift),
      (∀ s ∈ todo, (whoIsAssigned L s.id).length ≤ 1) →
      resolveFold L tb todo L = L := by
  intro todo
  induction todo with
  | nil => intro _; rfl
  | cons s0 rest ih =>
    intro h
    simp only [resolveFold]
    have hstep : resolveShift (tb s0.id) L (whoIsAssigned L s0.id) s0.id = L := by
      unfold resolveShift
      rw [if_pos (h s0 (List.mem_cons_self s0 rest))]
    rw [hstep]
    exact ih (fun s hs => h s (List.mem_cons_of_mem s0 hs))

/-- resolveConflictsFair is the identity on an already-resolved ledger. -/
theorem resolveConflictsFair_id (tb : String → String → String → Bool)
    (L : Ledger) (h : ∀ s ∈ L.shifts, (whoIsAssigned L s.id).length ≤ 1) :
    resolveConflictsFair tb L = L :=
  resolveFold_id tb L.shifts h

/-! Determinism of the resolver in the absence of exact key ties. -/

theorem tieAmong_false_inj {A : Ledger} {C : List String}
    (h : tieAmong A C = false) :
    ∀ a ∈ C, ∀ b ∈ C, fairKey A a = fairKey A b → a = b := by
  intro a ha b hb hk
  by_contra hne
  have : tieAmong A C = true := by
    unfold tieAmong
    rw [List.any_eq_true]
    refine ⟨a, ha, ?_⟩
    rw [List.any_eq_true]
    refine ⟨b, hb, ?_⟩
    simp [hne, hk]
  rw [h] at this
  exact Bool.false_ne_true this

theorem sortRanked_head_unique {A : Ledger} {C : List String}
    {tb1 tb2 : String → String → Bool} {w1 w2 : String} {t1 t2 : List String}
    (htie : tieAmong A C = false)
    (h1 : sortRanked (rankLe A tb1) C = w1 :: t1)
    (h2 : sortRanked (rankLe A tb2) C = w2 :: t2) : w1 = w2 := by
  have hw1 : w1 ∈ C := by
    have : w1 ∈ sortRanked (rankLe A tb1) C := by
      rw [h1]
      exact List.mem_cons_self w1 t1
    exact (mem_sortRanked _ _ _).mp this
  have hw2 : w2 ∈ C := by
    have : w2 ∈ sortRanked (rankLe A tb2) C := by
      rw [h2]
      exact List.mem_cons_self w2 t2
    exact (mem_sortRanked _ _ _).mp this
  have hk1 : keyLeP (fairKey A w1) (fairKey A w2) :=
    sortRanked_headMin (k := fairKey A)
      (fun a b hab => rankLe_true_keyLe hab)
      (fun a b hab => rankLe_false_keyLe hab) C w1 t1 h1 w2 hw2
  have hk2 : keyLeP (fairKey A w2) (fairKey A w1) :=
    sortRanked_headMin (k := fairKey A)
      (fun a b hab => rankLe_true_keyLe hab)
      (fun a b hab => rankLe_false_keyLe hab) C w2 t2 h2 w1 hw1
  exact tieAmong_false_inj htie w1 hw1 w2 hw2 (keyLeP_antisymm hk1 hk2)

theorem resolveShift_tb_irrel {A : Ledger} {C : List String} {sid : String}
    (htie : (if C.length ≤ 1 then false else tieAmong A C) = false)
    (tb1 tb2 : String → String → Bool) :
    resolveShift tb1 A C sid = resolveShift tb2 A C sid := by
  by_cases hlen : C.length ≤ 1
  · unfold resolveShift
    rw [if_pos hlen, if_pos hlen]
  · rw [if_neg hlen] at htie
    have hCne : C ≠ [] := by
      intro h
      rw [h] at hlen
      simp at hlen
    unfold resolveShift
    rw [if_neg hlen, if_neg hlen]
    cases h1 : sortRanked (rankLe A tb1) C with
    | nil => exact absurd h1 (sortRanked_ne_nil _ _ hCne)
    | cons w1 t1 =>
      cases h2 : sortRanked (rankLe A tb2) C with
      | nil => exact absurd h2 (sortRanked_ne_nil _ _ hCne)
      | cons w2 t2 =>
        rw [sortRanked_head_unique htie h1 h2]

theorem resolveFoldAux_flag_mono (L0 : Ledger) (tb : String → String → String → Bool) :
    ∀ (todo : List Shift) (A : Ledger), (resolveFoldAux L0 tb todo (A, true)).2 = true := by
  intro todo
  induction todo with
  | nil => intro A; rfl
  | cons s rest ih =>
    intro A
    simp only [resolveFoldAux, Bool.true_or]
    exact ih _

theorem resolveFoldAux_fst (L0 : Ledger) (tb : String → String → String → Bool) :
    ∀ (todo : List Shift) (A : Ledger) (b : Bool),
      (resolveFoldAux L0 tb todo (A, b)).1 = resolveFold L0 tb todo A := by
  intro todo
  induction todo with
  | nil => intro A b; rfl
  | cons s rest ih =>
    intro A b
    simp only [resolveFoldAux, resolveFold, resolveShiftAux]
    exact ih _ _

theorem resolveFold_det (L0 : Ledger) (tb1 tb2 : String → String → String → Bool) :
    ∀ (todo : List Shift) (A : Ledger),
      (resolveFoldAux L0 tb1 todo (A, false)).2 = false →
      resolveFold L0 tb2 todo A = (resolveFoldAux L0 tb1 todo (A, false)).1 := by
  intro todo
  induction todo with
  | nil => intro A _; rfl
  | cons s rest ih =>
    intro A hflag
    simp only [resolveFoldAux, resolveShiftAux, Bool.false_or] at hflag ⊢
    set C := whoIsAssigned L0 s.id with hC
    set flg := (if C.length ≤ 1 then false else tieAmong A C) with hflg
    have hflgf : flg = false := by
      by_contra hne
      have : flg = true := eq_true_of_ne_false hne
      rw [this] at hflag
      rw [resolveFoldAux_flag_mono] at hflag
      exact absurd hflag (by simp)
    rw [hflgf] at hflag ⊢
    simp only [resolveFold]
    rw [resolveShift_tb_irrel (hflg ▸ hflgf) (tb2 s.id) (tb1 s.id)]
    exact ih _ hflag

/-- Tie-break independence: a resolver run whose tie flag stays false is
reproduced exactly by every other tie-break function. -/
theorem resolveConflictsFair_det {tb1 : String → String → String → Bool}
    {L L' : Ledger} (h : resolveConflictsFairAux tb1 L = (L', false))
    (tb2 : String → String → String → Bool) :
    resolveConflictsFair tb2 L = L' := by
  have hflag : (resolveFoldAux L tb1 L.shifts (L, false)).2 = false := by
    rw [show resolveFoldAux L tb1 L.shifts (L, false) = (L', false) from h]
  have := resolveFold_det L tb1 tb2 L.shifts L hflag
  unfold resolveConflictsFair
  rw [this, show resolveFoldAux L tb1 L.shifts (L, false) = (L', false) from h]

/-! Pick-ledger lemmas: quota safety and re-claim behaviour. -/

theorem claimShift_at_quota {L : Ledger} {r : String} (sid : String)
    (h : L.slots ≤ (getPicks L r).length) :
    claimShift L r sid = .error .QuotaExceeded := by
  simp only [claimShift]
  rw [if_pos h]

theorem applyPickOp_claim_already {L : Ledger} {r sid : String}
    (h : sid ∈ getPicks L r) : applyPickOp L (.claim r sid) = L := by
  simp only [applyPickOp, claimShift]
  by_cases hq : L.slots ≤ (getPicks L r).length
  · rw [if_pos hq]
  · rw [if_neg hq, if_pos h]

theorem claimShift_already_below_quota {L : Ledger} {r sid : String}
    (hq : (getPicks L r).length < L.slots) (h : sid ∈ getPicks L r) :
    claimShift L r sid = .ok L := by
  simp only [claimShift]
  rw [if_neg (by omega), if_pos h]

theorem applyPickOp_slots (L : Ledger) (op : PickOp) :
    (applyPickOp L op).slots = L.slots := by
  cases op with
  | claim r sid =>
    simp only [applyPickOp, claimShift]
    by_cases hq : L.slots ≤ (getPicks L r).length
    · rw [if_pos hq]
    · rw [if_neg hq]
      by_cases hm : sid ∈ getPicks L r
      · rw [if_pos hm]
      · rw [if_neg hm]
        rfl
  | unclaim r sid => rfl

theorem statsTotal_setPicks_le {L : Ledger} {r0 : String} {ids : List String} {n : Nat}
    (hids : ids.length ≤ n) (hall : ∀ r, statsTotal L r ≤ n) :
    ∀ r, statsTotal (setPicks L r0 ids) r ≤ n := by
  intro r
  by_cases hr : r = r0
  · subst hr
    unfold statsTotal
    rw [getPicks_setPicks_self]
    by_cases hm : r ∈ residentsOf L
    · rw [if_pos hm]
      exact hids
    · rw [if_neg hm]
      simp
  · unfold statsTotal
    rw [getPicks_setPicks_ne L r0 r ids hr]
    exact hall r

theorem applyPickOp_quota {L : Ledger} (op : PickOp)
    (h : ∀ r, statsTotal L r ≤ L.slots) :
    ∀ r, statsTotal (applyPickOp L op) r ≤ L.slots := by
  cases op with
  | claim r0 sid =>
    simp only [applyPickOp, claimShift]
    by_cases hq : L.slots ≤ (getPicks L r0).length
    · rw [if_pos hq]
      exact h
    · rw [if_neg hq]
      by_cases hm : sid ∈ getPicks L r0
      · rw [if_pos hm]
        exact h
      · rw [if_neg hm]
        push_neg at hq
        apply statsTotal_setPicks_le _ h
        rw [List.length_append]
        simpa using hq
  | unclaim r0 sid =>
    simp only [applyPickOp, unclaimShift]
    apply statsTotal_setPicks_le _ h
    exact le_trans (List.length_filter_le _ _) (h r0)

theorem applyPickOps_quota (ops : List PickOp) :
    ∀ L : Ledger, (∀ r, statsTotal L r ≤ L.slots) →
      ∀ r, statsTotal (applyPickOps L ops) r ≤ L.slots := by
  induction ops with
  | nil => exact fun L h => h
  | cons op rest ih =>
    intro L h r
    show statsTotal (applyPickOps (applyPickOp L op) rest) r ≤ L.slots
    have hstep : ∀ r, statsTotal (applyPickOp L op) r ≤ (applyPickOp L op).slots := by
      rw [applyPickOp_slots]
      exact applyPickOp_quota op h
    have := ih (applyPickOp L op) hstep r
    rw [applyPickOp_slots] at this
    exact this

/-! Registry lemmas: duplicate rejection and cascading removal. -/

theorem addShift_duplicate {L : Ledger} {date ty : String} {s : Shift}
    (hs : s ∈ L.shifts) (hd : s.date = date) (ht : s.type = ty)
    (hid : s.id = idFor s.date s.type) (hde : date ≠ "") (hte : ty ≠ "") :
    addShift L date ty = .error .DuplicateShift := by
  simp only [addShift]
  rw [if_neg (by simp [hde, hte])]
  rw [if_pos]
  rw [List.any_eq_true]
  refine ⟨s, hs, ?_⟩
  rw [decide_eq_true_eq, hid, hd, ht]

theorem removeShift_shifts_clean (L : Ledger) (sid : String) :
    ∀ s ∈ (removeShift L sid).shifts, s.id ≠ sid := by
  intro s hs
  have := List.mem_filter.mp hs
  rw [decide_eq_true_eq] at this
  exact this.2

theorem getPicks_removeShift (L : Ledger) (sid r : String) :
    getPicks (removeShift L sid) r = (getPicks L r).filter (fun i => decide (i ≠ sid)) :=
  lookupPicks_map_values (fun v => v.filter (fun i => decide (i ≠ sid))) rfl L.picks r

theorem removeShift_picks_clean (L : Ledger) (sid : String) :
    ∀ r, sid ∉ getPicks (removeShift L sid) r := by
  intro r h
  rw [getPicks_removeShift] at h
  have := (List.mem_filter.mp h).2
  simp at this

theorem removeShift_noop (L : Ledger) (sid : String)
    (h1 : ∀ s ∈ L.shifts, s.id ≠ sid) (h2 : ∀ p ∈ L.picks, sid ∉ p.2) :
    removeShift L sid = L := by
  unfold removeShift
  have hsf : L.shifts.filter (fun s => decide (s.id ≠ sid)) = L.shifts := by
    rw [List.filter_eq_self]
    intro s hs
    rw [decide_eq_true_eq]
    exact h1 s hs
  have hpf : L.picks.map (fun p => (p.1, p.2.filter (fun i => decide (i ≠ sid)))) = L.picks := by
    have : ∀ p ∈ L.picks, (p.1, p.2.filter (fun i => decide (i ≠ sid))) = p := by
      intro p hp
      have : p.2.filter (fun i => decide (i ≠ sid)) = p.2 := by
        rw [List.filter_eq_self]
        intro i hi
        rw [decide_eq_true_eq]
        intro hisid
        exact h2 p hp (hisid ▸ hi)
      rw [this]
    calc L.picks.map (fun p => (p.1, p.2.filter (fun i => decide (i ≠ sid))))
        = L.picks.map id := List.map_congr_left this
      _ = L.picks := List.map_id L.picks
  rw [hsf, hpf]

theorem listShifts_removeShift_clean (L : Ledger) (sid : String) :
    ∀ s ∈ listShifts (removeShift L sid), s.id ≠ sid := by
  intro s hs
  unfold listShifts at hs
  exact removeShift_shifts_clean L sid s ((mem_sortRanked _ _ _).mp hs)

/-! Random-fill lemmas. -/

theorem tryCands_id {A : Ledger} {sid : String} :
    ∀ cands : List String, (∀ c ∈ cands, ¬ (getPicks A c).length < A.slots) →
      tryCands A sid cands = A := by
  intro cands
  induction cands with
  | nil => intro _; rfl
  | cons c rest ih =>
    intro h
    simp only [tryCands]
    rw [if_neg (fun hc => h c (List.mem_cons_self c rest) hc.2)]
    exact ih (fun x hx => h x (List.mem_cons_of_mem c hx))

theorem tryCands_find {A : Ledger} {sid : String} (hno : ∀ r, sid ∉ getPicks A r) :
    ∀ cands : List String,
      tryCands A sid cands =
        match cands.find? (fun c => decide ((getPicks A c).length < A.slots)) with
        | some c => setPicks A c (getPicks A c ++ [sid])
        | none => A := by
  intro cands
  induction cands with
  | nil => rfl
  | cons c rest ih =>
    simp only [tryCands]
    by_cases hq : (getPicks A c).length < A.slots
    · rw [if_pos ⟨hno c, hq⟩]
      rw [List.find?_cons_of_pos _ (by rw [decide_eq_true_eq]; exact hq)]
    · rw [if_neg (fun hcc => hq hcc.2)]
      rw [List.find?_cons_of_neg _ (by rw [decide_eq_true_eq]; exact hq)]
      exact ih

theorem assignOne_nil {A : Ledger} {sid : String} {tb : String → String → Bool}
    (hs : sortRanked (rankLe A tb) (residentsOf A) = []) :
    assignOne tb A sid = A := by
  unfold assignOne
  rw [hs]

theorem assignOne_cons {A : Ledger} {sid : String} {tb : String → String → Bool}
    {chosen : String} {rest : List String}
    (hs : sortRanked (rankLe A tb) (residentsOf A) = chosen :: rest) :
    assignOne tb A sid =
      if ¬ sid ∈ getPicks A chosen ∧ (getPicks A chosen).length < A.slots then
        setPicks A chosen (getPicks A chosen ++ [sid])
      else tryCands A sid rest := by
  unfold assignOne
  rw [hs]

theorem assignOne_eq_find {A : Ledger} {sid : String} (tb : String → String → Bool)
    (hno : ∀ r, sid ∉ getPicks A r) :
    assignOne tb A sid =
      match (sortRanked (rankLe A tb) (residentsOf A)).find?
          (fun c => decide ((getPicks A c).length < A.slots)) with
      | some c => setPicks A c (getPicks A c ++ [sid])
      | none => A := by
  cases hs : sortRanked (rankLe A tb) (residentsOf A) with
  | nil =>
    rw [assignOne_nil hs]
    rfl
  | cons chosen rest =>
    rw [assignOne_cons hs]
    by_cases hq : (getPicks A chosen).length < A.slots
    · rw [if_pos ⟨hno chosen, hq⟩]
      rw [List.find?_cons_of_pos _ (by rw [decide_eq_true_eq]; exact hq)]
    · rw [if_neg (fun hcc => hq hcc.2)]
      rw [List.find?_cons_of_neg _ (by rw [decide_eq_true_eq]; exact hq)]
      exact tryCands_find hno rest

theorem tryCands_quota {A : Ledger} {sid : String}
    (h : ∀ r, statsTotal A r ≤ A.slots) :
    ∀ cands : List String,
      (∀ r, statsTotal (tryCands A sid cands) r ≤ A.slots) ∧
        (tryCands A sid cands).slots = A.slots := by
  intro cands
  induction cands with
  | nil => exact ⟨h, rfl⟩
  | cons c rest ih =>
    simp only [tryCands]
    by_cases hc : ¬ sid ∈ getPicks A c ∧ (getPicks A c).length < A.slots
    · rw [if_pos hc]
      refine ⟨?_, rfl⟩
      apply statsTotal_setPicks_le _ h
      rw [List.length_append]
      have := hc.2
      simp only [List.length_cons, List.length_nil]
      omega
    · rw [if_neg hc]
      exact ih

theorem assignOne_quota {A : Ledger} (tb : String → String → Bool) (sid : String)
    (h : ∀ r, statsTotal A r ≤ A.slots) :
    (∀ r, statsTotal (assignOne tb A sid) r ≤ A.slots) ∧
      (assignOne tb A sid).slots = A.slots := by
  cases hs : sortRanked (rankLe A tb) (residentsOf A) with
  | nil =>
    rw [assignOne_nil hs]
    exact ⟨h, rfl⟩
  | cons chosen rest =>
    rw [assignOne_cons hs]
    by_cases hc : ¬ sid ∈ getPicks A chosen ∧ (getPicks A chosen).length < A.slots
    · rw [if_pos hc]
      refine ⟨?_, rfl⟩
      apply statsTotal_setPicks_le _ h
      rw [List.length_append]
      have := hc.2
      simp only [List.length_cons, List.length_nil]
      omega
    · rw [if_neg hc]
      exact tryCands_quota h rest

theorem randomFold_quota (tb : String → String → String → Bool) :
    ∀ (todo : List Shift) (A : Ledger), (∀ r, statsTotal A r ≤ A.slots) →
      (∀ r, statsTotal (randomFold tb todo A) r ≤ A.slots) ∧
        (randomFold tb todo A).slots = A.slots := by
  intro todo
  induction todo with
  | nil => exact fun A h => ⟨h, rfl⟩
  | cons s rest ih =>
    intro A h
    simp only [randomFold]
    have hstep := assignOne_quota (tb s.id) s.id h
    have hrec := ih (assignOne (tb s.id) A s.id)
      (by rw [hstep.2]; exact hstep.1)
    rw [hstep.2] at hrec
    exact hrec

theorem assignOne_id_of_full {A : Ledger} (tb : String → String → Bool) (sid : String)
    (h : ∀ r ∈ residentsOf A, A.slots ≤ statsTotal A r) :
    assignOne tb A sid = A := by
  cases hs : sortRanked (rankLe A tb) (residentsOf A) with
  | nil => exact assignOne_nil hs
  | cons chosen rest =>
    rw [assignOne_cons hs]
    have hmem : ∀ c ∈ chosen :: rest, c ∈ residentsOf A := by
      intro c hc
      have : c ∈ sortRanked (rankLe A tb) (residentsOf A) := by
        rw [hs]
        exact hc
      exact (mem_sortRanked _ _ _).mp this
    have hfullc : ¬ (getPicks A chosen).length < A.slots := by
      have := h chosen (hmem chosen (List.mem_cons_self chosen rest))
      unfold statsTotal at this
      omega
    rw [if_neg (fun hc => hfullc hc.2)]
    apply tryCands_id
    intro c hc
    have := h c (hmem c (List.mem_cons_of_mem chosen hc))
    unfold statsTotal at this
    omega

theorem randomAssignRemaining_id_of_full (tb : String → String → String → Bool)
    (L : Ledger) (h : ∀ r ∈ residentsOf L, L.slots ≤ statsTotal L r) :
    randomAssignRemaining tb L = L := by
  unfold randomAssignRemaining
  generalize L.shifts.filter (fun s => decide ((whoIsAssigned L s.id).length = 0)) = todo
  induction todo with
  | nil => rfl
  | cons s rest ih =>
    simp only [randomFold]
    rw [assignOne_id_of_full (tb s.id) s.id h]
    exact ih

/-! Legacy-variant lemmas: dual-bookkeeping consistency of handleSelect
and the resolver postcondition on the stored assigned arrays. -/

theorem map_ite_id {α : Type} (p : α → Prop) [DecidablePred p] (f : α → α) :
    ∀ l : List α, (∀ x ∈ l, ¬ p x) →
      l.map (fun x => if p x then f x else x) = l := by
  intro l
  induction l with
  | nil => intro _; rfl
  | cons a rest ih =>
    intro h
    simp only [List.map_cons]
    rw [if_neg (h a (List.mem_cons_self a rest))]
    rw [ih (fun x hx => h x (List.mem_cons_of_mem a hx))]

theorem updateFirstShift_eq_map (sid : String) (f : JsShift → JsShift) :
    ∀ l : List JsShift, (l.map JsShift.id).Nodup →
      updateFirstShift sid f l = l.map (fun s => if s.id = sid then f s else s) := by
  intro l
  induction l with
  | nil => intro _; rfl
  | cons s rest ih =>
    intro hnd
    simp only [List.map_cons, List.nodup_cons] at hnd
    simp only [updateFirstShift, List.map_cons]
    by_cases h : s.id = sid
    · rw [if_pos h, if_pos h]
      have : rest.map (fun x => if x.id = sid then f x else x) = rest := by
        apply map_ite_id
        intro x hx hxid
        apply hnd.1
        rw [h, ← hxid]
        exact List.mem_map_of_mem JsShift.id hx
      rw [this]
    · rw [if_neg h, if_neg h, ih hnd.2]

theorem jsResolveConflicts_le_one (coin : String → String → Bool) (st : JsState) :
    ∀ s' ∈ (jsResolveConflicts coin st).shifts, s'.assigned.length ≤ 1 := by
  intro s' hs'
  have hsh : (jsResolveConflicts coin st).shifts = st.shifts.map (fun s =>
      if s.assigned.length ≤ 1 then s
      else
        match s.assigned with
        | [] => s
        | a :: rest => { s with assigned := [rest.foldl (jsBetterStep st coin) a] }) := rfl
  rw [hsh] at hs'
  obtain ⟨s, hsm, hseq⟩ := List.mem_map.mp hs'
  by_cases hle : s.assigned.length ≤ 1
  · rw [if_pos hle] at hseq
    rw [← hseq]
    exact hle
  · rw [if_neg hle] at hseq
    cases ha : s.assigned with
    | nil =>
      rw [ha] at hseq
      rw [← hseq, ha]
      simp
    | cons a rest =>
      rw [ha] at hseq
      rw [← hseq]
      simp

theorem jsPicks_setJsPicks_self (st : JsState) (u : String) (ids : List String)
    (hmem : u ∈ st.userPicks.map Prod.fst) :
    jsPicks (setJsPicks st u ids) u = ids :=
  lookupPicks_set_self st.userPicks u ids hmem

theorem jsPicks_setJsPicks_ne (st : JsState) (u u' : String) (ids : List String)
    (hne : u' ≠ u) : jsPicks (setJsPicks st u ids) u' = jsPicks st u' :=
  lookupPicks_set_ne st.userPicks u u' ids hne

theorem handleSelect_eq_found {st : JsState} {cu sid : String} {shift : JsShift}
    (hfin : lookupFlag st.finishedUsers cu = false)
    (hfind : st.shifts.find? (fun s => decide (s.id = sid)) = some shift) :
    handleSelect st cu sid = handleSelectFound st cu sid shift := by
  unfold handleSelect
  rw [if_neg (by simp [hfin]), hfind]

theorem handleSelectFound_remove {st : JsState} {cu sid : String} {shift : JsShift}
    (hassigned : cu ∈ shift.assigned) :
    handleSelectFound st cu sid shift =
      setJsPicks { st with shifts := updateFirstShift sid (dropAssigned cu) st.shifts }
        cu ((jsPicks st cu).erase sid) := by
  unfold handleSelectFound
  rw [if_pos hassigned]
  rfl

theorem handleSelectFound_claim {st : JsState} {cu sid : String} {shift : JsShift}
    (hassigned : cu ∉ shift.assigned)
    (hq : ¬ st.maxShiftsPerUser ≤ (jsPicks st cu).length) :
    handleSelectFound st cu sid shift =
      setJsPicks { st with shifts := updateFirstShift sid (pushAssigned cu) st.shifts }
        cu (jsPicks st cu ++ [sid]) := by
  unfold handleSelectFound
  rw [if_neg hassigned, if_neg hq]
  rfl

theorem handleSelectFound_quota_noop {st : JsState} {cu sid : String} {shift : JsShift}
    (hassigned : cu ∉ shift.assigned)
    (hq : st.maxShiftsPerUser ≤ (jsPicks st cu).length) :
    handleSelectFound st cu sid shift = st := by
  unfold handleSelectFound
  rw [if_neg hassigned, if_pos hq]

theorem handleSelect_consistent (st : JsState) (cu sid : String)
    (hcons : JsConsistent st)
    (hnd : (st.shifts.map JsShift.id).Nodup)
    (hpnd : ∀ u, (jsPicks st u).Nodup)
    (hcu : cu ∈ st.userPicks.map Prod.fst) :
    JsConsistent (handleSelect st cu sid) := by
  by_cases hfin : lookupFlag st.finishedUsers cu = true
  · unfold handleSelect
    rw [if_pos hfin]
    exact hcons
  · have hfin' : lookupFlag st.finishedUsers cu = false := by
      rw [Bool.eq_false_iff]
      exact hfin
    cases hfind : st.shifts.find? (fun s => decide (s.id = sid)) with
    | none =>
      unfold handleSelect
      rw [if_neg (by simp [hfin']), hfind]
      exact hcons
    | some shift =>
      rw [handleSelect_eq_found hfin' hfind]
      by_cases hassigned : cu ∈ shift.assigned
      · -- unclaim branch
        rw [handleSelectFound_remove hassigned]
        set st1 : JsState :=
          { st with shifts := updateFirstShift sid (dropAssigned cu) st.shifts } with hst1
        intro s' hs' u
        have hshifts : (setJsPicks st1 cu ((jsPicks st cu).erase sid)).shifts =
            st.shifts.map (fun s => if s.id = sid then dropAssigned cu s else s) := by
          show updateFirstShift sid (dropAssigned cu) st.shifts = _
          exact updateFirstShift_eq_map sid (dropAssigned cu) st.shifts hnd
        rw [hshifts] at hs'
        obtain ⟨s, hsm, hseq⟩ := List.mem_map.mp hs'
        have hpickset : ∀ v : String,
            jsPicks (setJsPicks st1 cu ((jsPicks st cu).erase sid)) v =
              if v = cu then (jsPicks st cu).erase sid else jsPicks st v := by
          intro v
          by_cases hv : v = cu
          · subst hv
            rw [if_pos rfl]
            exact lookupPicks_set_self st.userPicks v _ hcu
          · rw [if_neg hv]
            exact lookupPicks_set_ne st.userPicks cu v _ hv
        rw [hpickset u]
        by_cases hid : s.id = sid
        · rw [if_pos hid] at hseq
          rw [← hseq]
          show u ∈ s.assigned.filter (fun v => decide (v ≠ cu)) ↔ (dropAssigned cu s).id ∈ _
          have hdid : (dropAssigned cu s).id = s.id := rfl
          rw [hdid, List.mem_filter, decide_eq_true_eq]
          by_cases hu : u = cu
          · subst hu
            rw [if_pos rfl, hid]
            constructor
            · intro h
              exact absurd rfl h.2
            · intro h
              have := (List.Nodup.mem_erase_iff (hpnd u)).mp h
              exact absurd rfl this.1
          · rw [if_neg hu]
            rw [← hcons s hsm u]
            simp [hu]
        · rw [if_neg hid] at hseq
          rw [← hseq]
          rw [hcons s hsm u]
          by_cases hu : u = cu
          · subst hu
            rw [if_pos rfl]
            rw [List.Nodup.mem_erase_iff (hpnd u)]
            simp [hid]
          · rw [if_neg hu]
      · by_cases hq : st.maxShiftsPerUser ≤ (jsPicks st cu).length
        · rw [handleSelectFound_quota_noop hassigned hq]
          exact hcons
        · -- claim branch
          rw [handleSelectFound_claim hassigned hq]
          set st1 : JsState :=
            { st with shifts := updateFirstShift sid (pushAssigned cu) st.shifts } with hst1
          intro s' hs' u
          have hshifts : (setJsPicks st1 cu (jsPicks st cu ++ [sid])).shifts =
              st.shifts.map (fun s => if s.id = sid then pushAssigned cu s else s) := by
            show updateFirstShift sid (pushAssigned cu) st.shifts = _
            exact updateFirstShift_eq_map sid (pushAssigned cu) st.shifts hnd
          rw [hshifts] at hs'
          obtain ⟨s, hsm, hseq⟩ := List.mem_map.mp hs'
          have hpickset : ∀ v : String,
              jsPicks (setJsPicks st1 cu (jsPicks st cu ++ [sid])) v =
                if v = cu then jsPicks st cu ++ [sid] else jsPicks st v := by
            intro v
            by_cases hv : v = cu
            · subst hv
              rw [if_pos rfl]
              exact lookupPicks_set_self st.userPicks v _ hcu
            · rw [if_neg hv]
              exact lookupPicks_set_ne st.userPicks cu v _ hv
          rw [hpickset u]
          by_cases hid : s.id = sid
          · rw [if_pos hid] at hseq
            rw [← hseq]
            show u ∈ s.assigned ++ [cu] ↔ (pushAssigned cu s).id ∈ _
            have hdid : (pushAssigned cu s).id = s.id := rfl
            rw [hdid, List.mem_append]
            by_cases hu : u = cu
            · subst hu
              rw [if_pos rfl, hid]
              simp
            · rw [if_neg hu]
              rw [← hcons s hsm u]
              simp [hu]
          · rw [if_neg hid] at hseq
            rw [← hseq]
            rw [hcons s hsm u]
            by_cases hu : u = cu
            · subst hu
              rw [if_pos rfl]
              rw [List.mem_append]
              simp [hid]
            · rw [if_neg hu]

/-! Claim theorems. -/

/-- C1 (counterexample): the spec's fairness scenario is unsatisfiable as
stated.  There is no ledger in which two residents both claim a shift
while one has fairness key (1, 1) and the other (3, 0): the single claim
of the first resident is the contested shift itself and counts as
undesirable, so the same shift must also count as undesirable for the
second resident, whose undesirable count therefore cannot be 0. -/
theorem c1_scenario_unsatisfiable :
    ¬ ∃ (L : Ledger) (a b sid : String), a ≠ b ∧
      a ∈ whoIsAssigned L sid ∧ b ∈ whoIsAssigned L sid ∧
      statsTotal L a = 1 ∧ statsMonFri L a = 1 ∧
      statsTotal L b = 3 ∧ statsMonFri L b = 0 := by
  rintro ⟨L, a, b, sid, _, ha, hb, hTa, hMa, hTb, hMb⟩
  have hsa : sid ∈ getPicks L a := (mem_whoIsAssigned_iff.mp ha).2
  have hsb : sid ∈ getPicks L b := (mem_whoIsAssigned_iff.mp hb).2
  unfold statsTotal at hTa
  obtain ⟨x, hx⟩ := List.length_eq_one.mp hTa
  rw [hx] at hsa
  have hxsid : x = sid := by
    rcases List.mem_cons.mp hsa with h | h
    · exact h.symm
    · exact absurd h (List.not_mem_nil sid)
  rw [hxsid] at hx
  unfold statsMonFri at hMa hMb
  rw [hx] at hMa
  rw [List.countP_cons, List.countP_nil] at hMa
  have hfb := List.countP_eq_zero.mp hMb sid hsb
  cases hcase : (match L.shifts.find? (fun s => decide (s.id = sid)) with
      | some s => isMonOrFri s.date
      | none => false) with
  | true => exact hfb hcase
  | false =>
    rw [hcase] at hMa
    simp at hMa

/-- C1 (amended): for every conflicted shift, resolveConflictsFair keeps
exactly one claimant, the contender with the lexicographically smallest
fairness key (totalClaims, undesirableClaims) under the current ledger,
for every tie-break; and in the realizable form of the spec's scenario,
where A = (1, 1) and B = (3, 1) both claim the Monday shift S1 (B's
undesirable count necessarily includes S1 itself, so it is 1, not the
spec's stated 0), A wins the contested shift regardless of the tie-break:
fewer total claims wins regardless of undesirable count. -/
theorem c1_winner_min_key :
    (∀ (tb : String → String → Bool) (A : Ledger) (sid : String),
        (residentsOf A).Nodup → 2 ≤ (whoIsAssigned A sid).length →
        ∃ w, whoIsAssigned (resolveShift tb A (whoIsAssigned A sid) sid) sid = [w] ∧
          w ∈ whoIsAssigned A sid ∧
          ∀ r ∈ whoIsAssigned A sid, keyLeP (fairKey A w) (fairKey A r)) ∧
    fairKey scenC1 "Resident A" = (1, 1) ∧ fairKey scenC1 "Resident B" = (3, 1) ∧
    whoIsAssigned scenC1 shiftS1.id = ["Resident A", "Resident B"] ∧
    (∀ tb : String → String → String → Bool,
        whoIsAssigned (resolveConflictsFair tb scenC1) shiftS1.id = ["Resident A"]) := by
  refine ⟨fun tb A sid hnd hC => resolveShift_exact tb sid hnd hC,
    by decide, by decide, by decide, ?_⟩
  intro tb
  have hrun : resolveConflictsFairAux tbTrue scenC1 = (scenC1r, false) := by decide
  rw [resolveConflictsFair_det hrun tb]
  decide

/-- C1 (witness): the single-shift winner selection applied to the
concrete scenario scenC1 at its contested Monday shift. -/
theorem c1_winner_min_key_witness :
    ((residentsOf scenC1).Nodup ∧ 2 ≤ (whoIsAssigned scenC1 shiftS1.id).length) ∧
    (∃ w, whoIsAssigned
        (resolveShift (fun x y => true) scenC1 (whoIsAssigned scenC1 shiftS1.id) shiftS1.id)
        shiftS1.id = [w] ∧
      w ∈ whoIsAssigned scenC1 shiftS1.id ∧
      ∀ r ∈ whoIsAssigned scenC1 shiftS1.id,
        keyLeP (fairKey scenC1 w) (fairKey scenC1 r)) :=
  ⟨⟨by decide, by decide⟩,
    c1_winner_min_key.1 (fun x y => true) scenC1 shiftS1.id (by decide) (by decide)⟩

/-- C2: after resolveConflictsFair, every shift in the registry has at
most one claimant (for every starting ledger with one picks entry per
resident and every tie-break); likewise, after the legacy variant's
resolveConflicts, every stored assigned array has length at most one. -/
theorem c2_at_most_one_claimant :
    (∀ (tb : String → String → String → Bool) (L : Ledger), (residentsOf L).Nodup →
        ∀ s ∈ (resolveConflictsFair tb L).shifts,
          (whoIsAssigned (resolveConflictsFair tb L) s.id).length ≤ 1) ∧
    (∀ (coin : String → String → Bool) (st : JsState),
        ∀ s ∈ (jsResolveConflicts coin st).shifts, s.assigned.length ≤ 1) :=
  ⟨fun tb L hnd => resolveConflictsFair_le_one tb L hnd,
   fun coin st => jsResolveConflicts_le_one coin st⟩

/-- C2 (witness): the resolver postcondition on the concrete conflicted
ledger scenC1. -/
theorem c2_at_most_one_claimant_witness :
    (residentsOf scenC1).Nodup ∧
    (∀ s ∈ (resolveConflictsFair tbTrue scenC1).shifts,
      (whoIsAssigned (resolveConflictsFair tbTrue scenC1) s.id).length ≤ 1) :=
  ⟨by decide, c2_at_most_one_claimant.1 tbTrue scenC1 (by decide)⟩

/-- C3: fairness keys are read from the current ledger, fresh for each
shift of the pass, which walks the registry in order; absent exact key
ties the result is independent of the tie-break, so two runs from
identical starting ledgers agree.  First conjunct: any run whose tie flag
stays false is reproduced exactly by every tie-break.  Remaining
conjuncts: in scenC3, B's and C's initial (memoized) keys are (2, 1) and
(2, 0) — a memoized comparison at the second contested shift would favour
C — yet after losing the first shift B's recomputed key drops, and the
pass awards the second shift to B under every tie-break. -/
theorem c3_fresh_keys_deterministic :
    (∀ (tb1 tb2 : String → String → String → Bool) (L L' : Ledger),
        resolveConflictsFairAux tb1 L = (L', false) →
        resolveConflictsFair tb2 L = L') ∧
    fairKey scenC3 "Resident B" = (2, 1) ∧ fairKey scenC3 "Resident C" = (2, 0) ∧
    whoIsAssigned scenC3 shiftW1.id = ["Resident B", "Resident C"] ∧
    (∀ tb : String → String → String → Bool,
        resolveConflictsFair tb scenC3 = scenC3r) ∧
    getPicks scenC3r "Resident B" = [shiftW1.id] ∧
    getPicks scenC3r "Resident C" = [shiftW2.id] := by
  refine ⟨fun tb1 tb2 L L' h => resolveConflictsFair_det h tb2,
    by decide, by decide, by decide, ?_, by decide, by decide⟩
  intro tb
  have hrun : resolveConflictsFairAux tbTrue scenC3 = (scenC3r, false) := by decide
  exact resolveConflictsFair_det hrun tb

/-- C3 (witness): the instrumented run on scenC3 under the left-biased
tie-break never consults the random path, and the run under the opposite
tie-break produces the same resolved ledger. -/
theorem c3_fresh_keys_deterministic_witness :
    resolveConflictsFairAux tbTrue scenC3 = (scenC3r, false) ∧
    resolveConflictsFair tbFalse scenC3 = scenC3r :=
  ⟨by decide, c3_fresh_keys_deterministic.1 tbTrue tbFalse scenC3 scenC3r (by decide)⟩

/-- C4: resolveConflictsFair is the identity on an already-resolved
ledger: when no shift has more than one claimant, the whole ledger —
registry, every resident's claim list, and the quota — is returned
unchanged, for every tie-break. -/
theorem c4_resolver_idempotent :
    ∀ (tb : String → String → String → Bool) (L : Ledger),
      (∀ s ∈ L.shifts, (whoIsAssigned L s.id).length ≤ 1) →
      resolveConflictsFair tb L = L :=
  fun tb L h => resolveConflictsFair_id tb L h

/-- C4 (witness): the concrete resolved ledger scenResolved is returned
unchanged. -/
theorem c4_resolver_idempotent_witness :
    (∀ s ∈ scenResolved.shifts, (whoIsAssigned scenResolved s.id).length ≤ 1) ∧
    resolveConflictsFair tbTrue scenResolved = scenResolved :=
  ⟨by decide, c4_resolver_idempotent tbTrue scenResolved (by decide)⟩

/-- C5: over every sequence of claim/unclaim operations from a ledger
within quota, every resident's claim count stays at most slotsPerResident;
and a claim attempted at quota fails with QuotaExceeded and leaves the
ledger unchanged. -/
theorem c5_quota_invariant :
    (∀ (L : Ledger) (ops : List PickOp), (∀ r, statsTotal L r ≤ L.slots) →
        ∀ r, statsTotal (applyPickOps L ops) r ≤ L.slots) ∧
    (∀ (L : Ledger) (r sid : String), statsTotal L r = L.slots →
        claimShift L r sid = .error .QuotaExceeded ∧
        applyPickOp L (.claim r sid) = L) := by
  refine ⟨fun L ops h r => applyPickOps_quota ops L h r, ?_⟩
  intro L r sid h
  have hq : L.slots ≤ (getPicks L r).length := by
    unfold statsTotal at h
    omega
  refine ⟨claimShift_at_quota sid hq, ?_⟩
  simp only [applyPickOp, claimShift_at_quota sid hq]

/-- C5 (witness): the spec's scenario: a resident with 4 claims against
slotsPerResident = 4 attempts a 5th claim, which fails with QuotaExceeded
and changes nothing; the claim list length remains 4. -/
theorem c5_quota_invariant_witness :
    statsTotal quotaLedger "Resident 1" = quotaLedger.slots ∧
    claimShift quotaLedger "Resident 1" "2025-09-17__PUERTA" = .error .QuotaExceeded ∧
    applyPickOp quotaLedger (.claim "Resident 1" "2025-09-17__PUERTA") = quotaLedger ∧
    statsTotal quotaLedger "Resident 1" = 4 :=
  ⟨by decide,
   (c5_quota_invariant.2 quotaLedger "Resident 1" "2025-09-17__PUERTA" (by decide)).1,
   (c5_quota_invariant.2 quotaLedger "Resident 1" "2025-09-17__PUERTA" (by decide)).2,
   by decide⟩

/-- C6: the derived view whoIsAssigned(shiftId) is, by construction,
exactly the set of residents whose claim list contains the id; and in the
legacy variant, which stores the assigned arrays separately, handleSelect
preserves the agreement between every stored assigned array and the picks
ledger (given the app's invariants: unique shift ids, duplicate-free claim
lists, and a hydrated picks entry for the acting user). -/
theorem c6_assigned_view_consistent :
    (∀ (L : Ledger) (sid r : String),
        r ∈ whoIsAssigned L sid ↔ r ∈ residentsOf L ∧ sid ∈ getPicks L r) ∧
    (∀ (st : JsState) (cu sid : String), JsConsistent st →
        (st.shifts.map JsShift.id).Nodup → (∀ u, (jsPicks st u).Nodup) →
        cu ∈ st.userPicks.map Prod.fst → JsConsistent (handleSelect st cu sid)) :=
  ⟨fun L sid r => mem_whoIsAssigned_iff,
   fun st cu sid h1 h2 h3 h4 => handleSelect_consistent st cu sid h1 h2 h3 h4⟩

/-- C6 (witness): consistency is preserved across a concrete claim click
in the small legacy state jsScen. -/
theorem c6_assigned_view_consistent_witness :
    JsConsistent (handleSelect jsScen "Resident 1" shiftS1.id) ∧
    "Resident 1" ∈ jsScen.userPicks.map Prod.fst := by
  have hcons : JsConsistent jsScen := by
    intro s hs u
    simp only [jsScen, List.mem_cons, List.not_mem_nil, or_false] at hs
    subst hs
    simp only [jsPicks, lookupPicks, ite_self, List.not_mem_nil]
  have hpnd : ∀ u, (jsPicks jsScen u).Nodup := by
    intro u
    simp only [jsPicks, jsScen, lookupPicks, ite_self]
    exact List.nodup_nil
  exact ⟨c6_assigned_view_consistent.2 jsScen "Resident 1" shiftS1.id hcons
      (by decide) hpnd (by decide), by decide⟩

/-- C7 (counterexample): re-claiming an already-claimed shift is not
always error-free: a resident at quota who re-claims one of their own
shifts receives QuotaExceeded, because the quota check runs before the
idempotence check.  (The ledger is still left unchanged.) -/
theorem c7_reclaim_error_at_quota :
    claimShift quotaLedger "Resident 1" shiftS1.id = .error .QuotaExceeded ∧
    shiftS1.id ∈ getPicks quotaLedger "Resident 1" :=
  ⟨claimShift_at_quota shiftS1.id (by decide), by decide⟩

/-- C7 (amended): claiming an already-claimed shift never changes the
ledger; it is a silent no-op (ok, no error) whenever the resident is below
quota, while at quota the quota check fires first and reports
QuotaExceeded, still changing nothing. -/
theorem c7_reclaim_noop :
    (∀ (L : Ledger) (r sid : String), sid ∈ getPicks L r →
        applyPickOp L (.claim r sid) = L) ∧
    (∀ (L : Ledger) (r sid : String), statsTotal L r < L.slots →
        sid ∈ getPicks L r → claimShift L r sid = .ok L) := by
  refine ⟨fun L r sid h => applyPickOp_claim_already h, ?_⟩
  intro L r sid hq h
  apply claimShift_already_below_quota _ h
  unfold statsTotal at hq
  omega

/-- C7 (witness): Resident A re-claims the Monday shift they already hold
in scenC1 (below quota): the ledger is unchanged and no error is
reported. -/
theorem c7_reclaim_noop_witness :
    (shiftS1.id ∈ getPicks scenC1 "Resident A" ∧
      statsTotal scenC1 "Resident A" < scenC1.slots) ∧
    applyPickOp scenC1 (.claim "Resident A" shiftS1.id) = scenC1 ∧
    claimShift scenC1 "Resident A" shiftS1.id = .ok scenC1 :=
  ⟨⟨by decide, by decide⟩,
   c7_reclaim_noop.1 scenC1 "Resident A" shiftS1.id (by decide),
   c7_reclaim_noop.2 scenC1 "Resident A" shiftS1.id (by decide) (by decide)⟩

/-- C8: adding a shift whose (date, type) pair is already present fails
with DuplicateShift and leaves the registry unchanged — the id is derived
deterministically from (date, type), so a well-formed registry entry with
the same pair forces the same id. -/
theorem c8_duplicate_shift :
    ∀ (L : Ledger) (date ty : String) (s : Shift), s ∈ L.shifts →
      s.date = date → s.type = ty → s.id = idFor s.date s.type →
      date ≠ "" → ty ≠ "" →
      addShift L date ty = .error .DuplicateShift ∧
      addShiftState L date ty = L ∧
      (addShiftState L date ty).shifts.length = L.shifts.length := by
  intro L date ty s hs hd ht hid hde hte
  have herr := addShift_duplicate hs hd ht hid hde hte
  have hstate : addShiftState L date ty = L := by
    simp only [addShiftState, herr]
  exact ⟨herr, hstate, by rw [hstate]⟩

/-- C8 (witness): the spec's scenario: addShift("2025-09-01", "Puerta")
twice; the second call fails with DuplicateShift and the registry size
remains 1. -/
theorem c8_duplicate_shift_witness :
    addShift oneShiftLedger "2025-09-01" "Puerta" = .error .DuplicateShift ∧
    addShiftState oneShiftLedger "2025-09-01" "Puerta" = oneShiftLedger ∧
    (addShiftState oneShiftLedger "2025-09-01" "Puerta").shifts.length =
      oneShiftLedger.shifts.length ∧
    oneShiftLedger.shifts.length = 1 := by
  have h := c8_duplicate_shift oneShiftLedger "2025-09-01" "Puerta"
    ⟨idFor "2025-09-01" "Puerta", "2025-09-01", "Puerta"⟩
    (by decide) (by decide) (by decide) (by decide) (by decide) (by decide)
  exact ⟨h.1, h.2.1, h.2.2, by decide⟩

/-- C9: removeShift(id) removes every shift with that id from the
registry and strips the id from every resident's claim list (however many
residents had claimed it), after which listShifts no longer contains it;
removing an id absent from the registry and from every claim list is a
no-op. -/
theorem c9_remove_shift_cascades :
    ∀ (L : Ledger) (sid : String),
      (∀ s ∈ (removeShift L sid).shifts, s.id ≠ sid) ∧
      (∀ r, sid ∉ getPicks (removeShift L sid) r) ∧
      (∀ s ∈ listShifts (removeShift L sid), s.id ≠ sid) ∧
      ((∀ s ∈ L.shifts, s.id ≠ sid) → (∀ p ∈ L.picks, sid ∉ p.2) →
        removeShift L sid = L) :=
  fun L sid =>
    ⟨removeShift_shifts_clean L sid, removeShift_picks_clean L sid,
     listShifts_removeShift_clean L sid,
     fun h1 h2 => removeShift_noop L sid h1 h2⟩

/-- C9 (witness): removing S1 from the scenario where both residents have
claimed it strips it from both claim lists; removing an absent id from
the same ledger changes nothing. -/
theorem c9_remove_shift_cascades_witness :
    (∀ r, shiftS1.id ∉ getPicks (removeShift scenRemove shiftS1.id) r) ∧
    removeShift scenRemove "2025-12-01__PUERTA" = scenRemove :=
  ⟨(c9_remove_shift_cascades scenRemove shiftS1.id).2.1,
   (c9_remove_shift_cascades scenRemove "2025-12-01__PUERTA").2.2.2
     (by decide) (by decide)⟩

/-- C10: randomAssignRemaining is a total function that never pushes a
resident over quota (conjunct 1); when every resident is at quota it
leaves the whole ledger unchanged, so the empty shifts stay unassigned
without an exception (conjuncts 2 and 4); each assignment step gives the
shift to the first resident of the fairness-ranked candidate list who is
below quota, falling down the list (conjunct 3); and the head of that
ranked list always carries a minimal fairness key (conjunct 5). -/
theorem c10_random_fill_quota_safe :
    (∀ (tb : String → String → String → Bool) (L : Ledger),
        (∀ r, statsTotal L r ≤ L.slots) →
        ∀ r, statsTotal (randomAssignRemaining tb L) r ≤ L.slots) ∧
    (∀ (tb : String → String → String → Bool) (L : Ledger),
        (∀ r ∈ residentsOf L, L.slots ≤ statsTotal L r) →
        randomAssignRemaining tb L = L) ∧
    (∀ (tb : String → String → Bool) (A : Ledger) (sid : String),
        (∀ r, sid ∉ getPicks A r) →
        assignOne tb A sid =
          match (sortRanked (rankLe A tb) (residentsOf A)).find?
              (fun c => decide ((getPicks A c).length < A.slots)) with
          | some c => setPicks A c (getPicks A c ++ [sid])
          | none => A) ∧
    (∀ (tb : String → String → Bool) (A : Ledger) (sid : String),
        (∀ r ∈ residentsOf A, A.slots ≤ statsTotal A r) →
        assignOne tb A sid = A) ∧
    (∀ (tb : String → String → Bool) (A : Ledger) (h : String) (t : List String),
        sortRanked (rankLe A tb) (residentsOf A) = h :: t →
        ∀ r ∈ residentsOf A, keyLeP (fairKey A h) (fairKey A r)) :=
  ⟨fun tb L h r => (randomFold_quota tb _ L h).1 r,
   fun tb L h => randomAssignRemaining_id_of_full tb L h,
   fun tb A sid h => assignOne_eq_find tb h,
   fun tb A sid h => assignOne_id_of_full tb sid h,
   fun tb A h t hs => sortRanked_headMin (k := fairKey A)
     (fun x y hxy => rankLe_true_keyLe hxy)
     (fun x y hxy => rankLe_false_keyLe hxy) _ h t hs⟩

/-- C10 (witness): with the single resident of quotaLedger at quota, the
random-fill pass leaves the ledger unchanged. -/
theorem c10_random_fill_quota_safe_witness :
    (∀ r ∈ residentsOf quotaLedger, quotaLedger.slots ≤ statsTotal quotaLedger r) ∧
    randomAssignRemaining tbTrue quotaLedger = quotaLedger :=
  ⟨by decide, c10_random_fill_quota_safe.2.1 tbTrue quotaLedger (by decide)⟩

end Guardia
